import Mathlib

/-!
Verification of the reactive-programming core of `yarp` (`yarp/value.py`).

The embedding models the transaction / dependency-propagation engine:

* `dfsDeps` / `toposortedDependencies` embed `_dfs_deps` and
  `_toposorted_dependencies`.  Python's bounded recursion stack is modelled
  with an explicit fuel parameter: exhausting the fuel corresponds to the
  interpreter raising `RecursionError`.
* `markChanged` embeds the `mark_changed` closure of
  `Reactive._in_new_transaction`.
* `exec` is a fueled small-step-free interpreter of the engine: each `Call`
  constructor corresponds to one code region of `value.py`
  (`Reactive._in_transaction`, `Reactive._in_new_transaction`, the
  set/emit bodies, the listener loop, the settle walk,
  `Value._on_inputs_done` / `Event._on_inputs_done`, and the emit loop of an
  event reaction).

User callbacks are the environment of the engine; they are modelled by the
small `Listener` command language (log the argument, log a current datum,
set another value, emit another event, or raise).  Recompute functions and
event reactions are modelled as pure functions of the current datum map, as
their Python counterparts are closures reading `Value.value` attributes.

Modelling notes (deliberate, claim-irrelevant simplifications):
* weak references are modelled as always live (no garbage collection);
* the `_TransactionInfo` cache and its `needs_update` version check are not
  modelled: every transaction rebuilds the index with the same pure
  function, which is what every build and rebuild of the cache runs;
* the scratch arrays `_tmp_changed` / `_tmp_to_run` are fresh per
  transaction instead of being stored on the root node (equivalent unless
  the same node roots two simultaneously open transactions, which no claim
  exercises);
* `S.nextId` is bookkeeping added by the model: it gives every transaction
  a numeric identity so that per-transaction properties can be stated about
  the flat trace.  Python distinguishes transactions by dynamic extent.
-/

set_option maxHeartbeats 1000000

namespace Yarp

/-- A datum held by a `Value`: either the `NoValue` sentinel or a value
(modelled as an integer). -/
inductive Val
  | noValue
  | mk (n : Int)
deriving DecidableEq, Repr

/-- Read a datum as an integer (user-code helper for recompute closures). -/
def Val.toI : Val → Int
  | .noValue => 0
  | .mk n => n

/-- Result of a recompute (`get_value`) call: the `NoChange` sentinel or a
new datum. -/
inductive GetRes
  | noChange
  | value (v : Val)
deriving DecidableEq, Repr

/-- User callback commands: the model of the arbitrary Python callables
registered with `on_value_changed` / `on_event`.  `logDatum` reads the
current datum of a node (so a listener can observe whether the write it is
notified of has already been applied), the `set…` forms assign
`Value.value` of another node re-entrantly, `emitC` calls `Event.emit`,
and `raiseE` raises an exception. -/
inductive Listener
  | log (tag : Nat)
  | logDatum (tag : Nat) (node : Nat)
  | setConst (target : Nat) (v : Val)
  | setToArg (target : Nat)
  | setIfNe (target : Nat) (v : Val)
  | emitC (target : Nat) (v : Val)
  | raiseE (e : Nat)
deriving DecidableEq, Repr

/-- Static description of one node (a `Value` or an `Event`).

`deps` is the node's `_dependencies` list: the nodes that registered this
node as an input, in registration order (weak references, modelled live).
`gv` is `Value._get_value`; `onDone` is `Event._on_inputs_done_cb`,
modelled as the sequence of payloads the reaction passes to `emit`,
computed from the datum map at the moment the reaction is invoked. -/
structure NodeSpec where
  isEvent : Bool := false
  deps : List Nat := []
  listeners : List Listener := []
  gv : Option ((Nat → Val) → GetRes) := none
  onDone : Option ((Nat → Val) → List Val) := none

instance : Inhabited NodeSpec := ⟨{}⟩

/-- A dependency graph: the nodes, indexed by id.  Ids at or beyond
`nodes.length` denote absent nodes and behave as empty specs. -/
structure Graph where
  nodes : List NodeSpec

def Graph.node (g : Graph) (n : Nat) : NodeSpec := g.nodes.getD n default

def Graph.deps (g : Graph) (n : Nat) : List Nat := (g.node n).deps

def Graph.nlisteners (g : Graph) (n : Nat) : List Listener := (g.node n).listeners

/-- Observable events of a run, used to state the claims: datum
assignments, emissions, listener invocations, "untracked dependency"
warnings, dependency-index builds, settle-walk invocations of
`_on_inputs_done` (tagged with the transaction id and closure position),
and recompute calls. -/
inductive TraceEv
  | setApplied (n : Nat) (v : Val)
  | emitApplied (n : Nat) (v : Val)
  | cbLog (tag : Nat) (v : Val)
  | warn (root n : Nat)
  | buildIndex (root : Nat)
  | settled (tid pos n : Nat)
  | recompute (n : Nat)
deriving DecidableEq, Repr

/-- Mutable program state: the datum of every `Value`, the observation
trace, and the next fresh transaction id. -/
structure S where
  datum : List Val
  trace : List TraceEv
  nextId : Nat
deriving DecidableEq, Repr

def S.datumFn (s : S) : Nat → Val := fun i => s.datum.getD i .noValue

def S.addTrace (s : S) (ev : TraceEv) : S := { s with trace := s.trace ++ [ev] }

/-- `_dfs_deps`: depth-first post-order walk of the dependents graph.
State is the pair `(all_deps, visited)`; Python's `visited` set is a list
with the same membership.  Fuel exhaustion models `RecursionError`. -/
def dfsDeps (g : Graph) : Nat → Nat → List Nat × List Nat → Option (List Nat × List Nat)
  | 0, _, _ => none
  | fuel + 1, r, st =>
    if r ∈ st.2 then some st
    else
      match (g.deps r).foldlM (fun st2 d => dfsDeps g fuel d st2) st with
      | none => none
      | some (acc, vis) => some (acc ++ [r], vis ++ [r])

/-- `_toposorted_dependencies`: run the DFS from the root and reverse.
The Python `assert all_deps[0] is reactive` is not encoded as a runtime
check; it is discharged by `toposortedDependencies_head` below. -/
def toposortedDependencies (g : Graph) (fuel : Nat) (root : Nat) : Option (List Nat) :=
  match dfsDeps g fuel root ([], []) with
  | none => none
  | some (acc, _) => some acc.reverse

/-- The per-transaction data of `_TransactionInfo` plus the scratch arrays:
the sorted closure, the precomputed dependent positions, and the
`_tmp_changed` / `_tmp_to_run` flags.  `txnId` is model bookkeeping. -/
structure TxnCtx where
  txnId : Nat
  root : Nat
  closure : List Nat
  dependentIdxes : List (List Nat)
  changed : List Bool
  toRun : List Bool
deriving DecidableEq, Repr

/-- Build the transaction info for `root` from its sorted closure
(`_TransactionInfo.update`).  `List.findIdx` plays the role of the
`_id_to_idx` lookup; a missing id cannot occur for a DFS-produced closure
(see `toposortedDependencies_closed`). -/
def mkTxnCtx (g : Graph) (tid root : Nat) (closure : List Nat) : TxnCtx :=
  { txnId := tid
    root := root
    closure := closure
    dependentIdxes := closure.map fun u => (g.deps u).map fun d => closure.findIdx (· = d)
    changed := closure.map fun _ => false
    toRun := closure.map fun _ => false }

/-- The `mark_changed` closure of `_in_new_transaction`: look the node up in
the closure; on a miss report failure (the caller emits the warning); on a
hit set `changed` once and flag every direct dependent position `to_run`. -/
def markChanged (t : TxnCtx) (n : Nat) : Bool × TxnCtx :=
  match t.closure.findIdx? (· = n) with
  | none => (false, t)
  | some idx =>
    if t.changed.getD idx false then (true, t)
    else
      (true,
        { t with
          changed := t.changed.set idx true
          toRun := (t.dependentIdxes.getD idx []).foldl (fun a j => a.set j true) t.toRun })

/-- The active transaction context (`_transaction_state.mark_changed`):
absent, the warn-only closure installed for a root with no dependents, or a
real transaction. -/
inductive Ctx
  | top
  | warnOnly (root : Nat)
  | txn (t : TxnCtx)
deriving DecidableEq, Repr

/-- The body run inside `_in_transaction`: a `Value.value` assignment or an
`Event.emit`. -/
inductive Body
  | setB (v : Val)
  | emitB (v : Val)
deriving DecidableEq, Repr

/-- The code regions of the engine, as interpreter entry points. -/
inductive Call
  | enter (n : Nat) (b : Body)
  | newTxn (n : Nat) (b : Body)
  | body (n : Nat) (b : Body)
  | listeners (ls : List Listener) (arg : Val)
  | walk (i : Nat)
  | settle (n : Nat)
  | emits (n : Nat) (ps : List Val)
deriving DecidableEq, Repr

/-- Outcome of a call: normal return, a propagating exception (with the
context value and state at the moment it crosses this frame), or fuel
exhaustion. -/
inductive Res
  | ok (c : Ctx) (s : S)
  | raised (e : Nat) (c : Ctx) (s : S)
  | fuelOut
deriving DecidableEq, Repr

/-- Error code of Python's `RecursionError` (raised when `_dfs_deps`
exhausts the recursion limit). -/
def recursionError : Nat := 1000

/-- Error code for situations the model proves unreachable (a non-`txn`
context observed where the engine installed one). -/
def modelError : Nat := 1001

def Res.bind (r : Res) (f : Ctx → S → Res) : Res :=
  match r with
  | .ok c s => f c s
  | r => r

theorem Res.bind_ok (c : Ctx) (s : S) (f : Ctx → S → Res) :
    (Res.ok c s).bind f = f c s := rfl

theorem Res.bind_raised (e : Nat) (c : Ctx) (s : S) (f : Ctx → S → Res) :
    (Res.raised e c s).bind f = .raised e c s := rfl

theorem Res.bind_fuelOut (f : Ctx → S → Res) : (Res.fuelOut).bind f = .fuelOut := rfl

/-- `finally: _transaction_state.mark_changed = old_mark_changed`. -/
def restoring (ctx : Ctx) (r : Res) : Res :=
  match r with
  | .ok _ s => .ok ctx s
  | .raised e _ s => .raised e ctx s
  | .fuelOut => .fuelOut

def Res.state? : Res → Option S
  | .ok _ s => some s
  | .raised _ _ s => some s
  | .fuelOut => none

def Res.ctx? : Res → Option Ctx
  | .ok c _ => some c
  | .raised _ c _ => some c
  | .fuelOut => none

/-- The engine interpreter.  Each `Call` case embeds the corresponding
region of `yarp/value.py`:

* `.enter` — `Reactive._in_transaction` wrapped around a set/emit body;
* `.newTxn` — `Reactive._in_new_transaction` (both the no-dependencies
  warn-only branch and the full transaction branch);
* `.body` — the `with`-body: a `Value.value` assignment plus the
  `_on_value_changed` loop, or the `Event.emit` callback loop;
* `.listeners` — the callback loop itself, interpreting the `Listener`
  commands;
* `.walk` — the `for i in range(1, len(all_dependencies))` settle walk;
* `.settle` — `Value._on_inputs_done` / `Event._on_inputs_done`;
* `.emits` — the sequence of `emit` calls an event reaction performs. -/
def exec (g : Graph) : Nat → Call → Ctx → S → Res
  | 0, _, _, _ => .fuelOut
  | fuel + 1, c, ctx, s =>
    match c with
    | .enter n b =>
      match ctx with
      | .top => exec g fuel (.newTxn n b) ctx s
      | .warnOnly root =>
        -- the warn-only mark_changed warns and returns None (falsy)
        exec g fuel (.newTxn n b) ctx (s.addTrace (.warn root n))
      | .txn t =>
        match markChanged t n with
        | (true, t2) => exec g fuel (.body n b) (.txn t2) s
        | (false, t2) =>
          exec g fuel (.newTxn n b) (.txn t2) (s.addTrace (.warn t.root n))
    | .newTxn n b =>
      if (g.deps n).isEmpty then
        restoring ctx (exec g fuel (.body n b) (.warnOnly n) s)
      else
        match toposortedDependencies g fuel n with
        | none => .raised recursionError ctx s
        | some closure =>
          let t0 := mkTxnCtx g s.nextId n closure
          let s1 : S :=
            { s with nextId := s.nextId + 1, trace := s.trace ++ [.buildIndex n] }
          let t1 := (markChanged t0 n).2
          restoring ctx <|
            (exec g fuel (.body n b) (.txn t1) s1).bind fun c2 s2 =>
              match c2 with
              | .txn t2 => exec g fuel (.walk 1) (.txn t2) s2
              | _ => .raised modelError c2 s2
    | .body n b =>
      match b with
      | .setB v =>
        exec g fuel (.listeners (g.nlisteners n) v) ctx
          { s with datum := s.datum.set n v, trace := s.trace ++ [.setApplied n v] }
      | .emitB v =>
        exec g fuel (.listeners (g.nlisteners n) v) ctx (s.addTrace (.emitApplied n v))
    | .listeners ls arg =>
      match ls with
      | [] => .ok ctx s
      | l :: rest =>
        match l with
        | .log tag =>
          exec g fuel (.listeners rest arg) ctx (s.addTrace (.cbLog tag arg))
        | .logDatum tag m =>
          exec g fuel (.listeners rest arg) ctx (s.addTrace (.cbLog tag (s.datumFn m)))
        | .setConst m v =>
          (exec g fuel (.enter m (.setB v)) ctx s).bind fun c2 s2 =>
            exec g fuel (.listeners rest arg) c2 s2
        | .setToArg m =>
          (exec g fuel (.enter m (.setB arg)) ctx s).bind fun c2 s2 =>
            exec g fuel (.listeners rest arg) c2 s2
        | .setIfNe m v =>
          if s.datumFn m = v then exec g fuel (.listeners rest arg) ctx s
          else
            (exec g fuel (.enter m (.setB v)) ctx s).bind fun c2 s2 =>
              exec g fuel (.listeners rest arg) c2 s2
        | .emitC m v =>
          (exec g fuel (.enter m (.emitB v)) ctx s).bind fun c2 s2 =>
            exec g fuel (.listeners rest arg) c2 s2
        | .raiseE e => .raised e ctx s
    | .walk i =>
      match ctx with
      | .txn t =>
        if i < t.closure.length then
          if t.toRun.getD i false then
            (exec g fuel (.settle (t.closure.getD i 0)) ctx
                (s.addTrace (.settled t.txnId i (t.closure.getD i 0)))).bind
              fun c2 s2 => exec g fuel (.walk (i + 1)) c2 s2
          else exec g fuel (.walk (i + 1)) ctx s
        else .ok ctx s
      | _ => .raised modelError ctx s
    | .settle n =>
      if (g.node n).isEvent then
        match (g.node n).onDone with
        | none => .ok ctx s
        | some f => exec g fuel (.emits n (f s.datumFn)) ctx s
      else
        match (g.node n).gv with
        | none => .ok ctx s
        | some f =>
          match f s.datumFn with
          | .noChange => .ok ctx (s.addTrace (.recompute n))
          | .value v =>
            exec g fuel (.enter n (.setB v)) ctx (s.addTrace (.recompute n))
    | .emits n ps =>
      match ps with
      | [] => .ok ctx s
      | p :: rest =>
        (exec g fuel (.enter n (.emitB p)) ctx s).bind fun c2 s2 =>
          exec g fuel (.emits n rest) c2 s2

/-! ## Properties of `_dfs_deps` / `_toposorted_dependencies` -/

/-- Acyclicity of the dependents graph, witnessed by a rank function rising
along every `deps` edge. -/
def Ranked (g : Graph) (rank : Nat → Nat) : Prop :=
  ∀ u d, d ∈ g.deps u → rank u < rank d

/-- Invariant of the DFS accumulator: no duplicates, closed under `deps`,
and every node appears after all of its `deps` (post-order). -/
def GoodAcc (g : Graph) (L : List Nat) : Prop :=
  L.Nodup ∧ (∀ u ∈ L, ∀ d ∈ g.deps u, d ∈ L) ∧ L.Pairwise (fun a b => b ∉ g.deps a)

theorem goodAcc_nil (g : Graph) : GoodAcc g [] := by
  refine ⟨List.nodup_nil, ?_, List.Pairwise.nil⟩
  intro u hu
  simp at hu

theorem goodAcc_concat (g : Graph) (L : List Nat) (x : Nat) (hL : GoodAcc g L)
    (hx : x ∉ L) (hdeps : ∀ d ∈ g.deps x, d ∈ L) : GoodAcc g (L ++ [x]) := by
  obtain ⟨hnd, hclosed, hpw⟩ := hL
  refine ⟨?_, ?_, ?_⟩
  · simp [List.nodup_append, hnd, hx]
  · intro u hu d hd
    rcases List.mem_append.mp hu with hu | hu
    · exact List.mem_append.mpr (Or.inl (hclosed u hu d hd))
    · have : u = x := by simpa using hu
      subst this
      exact List.mem_append.mpr (Or.inl (hdeps d hd))
  · rw [List.pairwise_append]
    refine ⟨hpw, List.pairwise_singleton _ _, ?_⟩
    intro a ha b hb hmem
    have : b = x := by simpa using hb
    subst this
    exact hx (hclosed a ha b hmem)

/-- Combined specification of one `_dfs_deps` call on an acyclic graph:
it only appends, keeps the accumulator and visited set equal, preserves the
post-order invariant, ensures the visited node is present, and appends only
nodes of rank at least the visited node's. -/
theorem dfsDeps_spec (g : Graph) (rank : Nat → Nat) (hr : Ranked g rank) :
    ∀ fuel x st st', dfsDeps g fuel x st = some st' → st.1 = st.2 → GoodAcc g st.1 →
      ∃ δ, st'.1 = st.1 ++ δ ∧ st'.2 = st.2 ++ δ ∧ GoodAcc g st'.1 ∧ x ∈ st'.1 ∧
        ∀ z ∈ δ, rank x ≤ rank z := by
  intro fuel
  induction fuel with
  | zero => intro x st st' h; simp [dfsDeps] at h
  | succ fuel ih =>
    -- specification of the fold over the dependents of one node
    have fold : ∀ ds st st',
        ((ds : List Nat).foldlM (fun st2 d => dfsDeps g fuel d st2) st = some st') →
        st.1 = st.2 → GoodAcc g st.1 →
        ∃ δ, st'.1 = st.1 ++ δ ∧ st'.2 = st.2 ++ δ ∧ GoodAcc g st'.1 ∧
          (∀ d ∈ ds, d ∈ st'.1) ∧ ∀ z ∈ δ, ∃ d ∈ ds, rank d ≤ rank z := by
      intro ds
      induction ds with
      | nil =>
        intro st st' h heq hgood
        simp [List.foldlM_nil] at h
        subst h
        exact ⟨[], by simp, by simp, hgood, by simp, by simp⟩
      | cons d ds ihd =>
        intro st st' h heq hgood
        rw [List.foldlM_cons] at h
        rcases Option.bind_eq_some.mp h with ⟨st1, h1, h2⟩
        obtain ⟨δ1, e1, e2, hg1, hd1, hrk1⟩ := ih d st st1 h1 heq hgood
        have heq1 : st1.1 = st1.2 := by rw [e1, e2, heq]
        obtain ⟨δ2, f1, f2, hg2, hd2, hrk2⟩ := ihd st1 st' h2 heq1 hg1
        refine ⟨δ1 ++ δ2, by rw [f1, e1, List.append_assoc],
          by rw [f2, e2, List.append_assoc], hg2, ?_, ?_⟩
        · intro d2 hd2m
          rcases List.mem_cons.mp hd2m with hcase | hcase
          · subst hcase
            rw [f1]
            exact List.mem_append.mpr (Or.inl hd1)
          · exact hd2 d2 hcase
        · intro z hz
          rcases List.mem_append.mp hz with hz | hz
          · exact ⟨d, by simp, hrk1 z hz⟩
          · obtain ⟨d2, hd2m, hle⟩ := hrk2 z hz
            exact ⟨d2, by simp [hd2m], hle⟩
    intro x st st' h heq hgood
    rw [dfsDeps] at h
    by_cases hvis : x ∈ st.2
    · simp [hvis] at h
      subst h
      exact ⟨[], by simp, by simp, hgood, heq ▸ hvis, by simp⟩
    · simp only [hvis, if_false] at h
      rcases hfold : (g.deps x).foldlM (fun st2 d => dfsDeps g fuel d st2) st with _ | st1
      · rw [hfold] at h; simp at h
      · rw [hfold] at h
        obtain ⟨acc, vis⟩ := st1
        simp only [Option.some.injEq] at h
        subst h
        obtain ⟨δ1, e1, e2, hg1, hd1, hrk1⟩ := fold (g.deps x) st (acc, vis) hfold heq hgood
        simp only at e1 e2 hg1 hd1
        have hxrank : ∀ z ∈ δ1, rank x < rank z := by
          intro z hz
          obtain ⟨d, hdm, hle⟩ := hrk1 z hz
          exact lt_of_lt_of_le (hr x d hdm) hle
        have hxδ1 : x ∉ δ1 := fun hx => lt_irrefl _ (hxrank x hx)
        have hxacc : x ∉ acc := by
          rw [e1]
          intro hx
          rcases List.mem_append.mp hx with hx | hx
          · exact hvis (heq ▸ hx)
          · exact hxδ1 hx
        refine ⟨δ1 ++ [x], ?_, ?_, ?_, ?_, ?_⟩
        · simp only [e1, List.append_assoc]
        · simp only [e2, List.append_assoc]
        · exact goodAcc_concat g acc x hg1 hxacc (fun d hd => hd1 d hd)
        · simp
        · intro z hz
          rcases List.mem_append.mp hz with hz | hz
          · exact le_of_lt (hxrank z hz)
          · have : z = x := by simpa using hz
            subst this; exact le_refl _

/-- On an acyclic graph a successful `_toposorted_dependencies` run yields a
closure that starts with the root, has no duplicates, is closed under the
dependents relation, and is topologically sorted: a node never occurs after
one of its dependents. -/
theorem toposortedDependencies_spec (g : Graph) (rank : Nat → Nat) (hr : Ranked g rank)
    (fuel root : Nat) (L : List Nat)
    (h : toposortedDependencies g fuel root = some L) :
    L.head? = some root ∧ L.Nodup ∧ (∀ u ∈ L, ∀ d ∈ g.deps u, d ∈ L) ∧
      L.Pairwise (fun a b => a ∉ g.deps b) := by
  rw [toposortedDependencies] at h
  rcases hdfs : dfsDeps g fuel root ([], []) with _ | st
  · rw [hdfs] at h; simp at h
  · rw [hdfs] at h
    obtain ⟨acc, vis⟩ := st
    simp only [Option.some.injEq] at h
    obtain ⟨δ, e1, _, hgood, hmem, _⟩ :=
      dfsDeps_spec g rank hr fuel root ([], []) (acc, vis) hdfs rfl (goodAcc_nil g)
    simp only [List.nil_append] at e1
    -- the top-level call appends the root last
    have hlast : ∃ acc1, acc = acc1 ++ [root] := by
      rcases fuel with _ | fuel
      · simp [dfsDeps] at hdfs
      · rw [dfsDeps] at hdfs
        simp only [List.not_mem_nil, if_false, if_neg] at hdfs
        rcases hfold : (g.deps root).foldlM (fun st2 d => dfsDeps g fuel d st2) ([], []) with _ | st1
        · rw [hfold] at hdfs; simp at hdfs
        · rw [hfold] at hdfs
          obtain ⟨acc1, vis1⟩ := st1
          simp only [Option.some.injEq, Prod.mk.injEq] at hdfs
          exact ⟨acc1, hdfs.1.symm⟩
    obtain ⟨hnd, hclosed, hpw⟩ := hgood
    simp only at hnd hclosed hpw hmem
    obtain ⟨acc1, rfl⟩ := hlast
    subst h
    refine ⟨?_, ?_, ?_, ?_⟩
    · simp
    · exact List.nodup_reverse.mpr hnd
    · intro u hu d hd
      exact List.mem_reverse.mpr (hclosed u (List.mem_reverse.mp hu) d hd)
    · exact List.pairwise_reverse.mpr hpw

/-- The two-node dependency loop of `test_loop_dep`: each node is a
dependent of the other (ids 0 and 1). -/
def gLoop : Graph := ⟨[{ deps := [1] }, { deps := [0] }]⟩

/-- On the loop graph, `_dfs_deps` never terminates normally: every
recursion budget is exhausted.  In CPython this surfaces as a
`RecursionError` once the recursion limit is hit. -/
theorem dfsDeps_gLoop_diverges :
    ∀ fuel st, 0 ∉ st.2 → 1 ∉ st.2 →
      dfsDeps gLoop fuel 0 st = none ∧ dfsDeps gLoop fuel 1 st = none := by
  intro fuel
  induction fuel with
  | zero => intro st _ _; exact ⟨rfl, rfl⟩
  | succ fuel ih =>
    intro st h0 h1
    constructor
    · rw [dfsDeps]
      simp only [h0, if_false]
      have hdep : gLoop.deps 0 = [1] := rfl
      rw [hdep]
      have : List.foldlM (fun st2 d => dfsDeps gLoop fuel d st2) st [1] = none := by
        rw [List.foldlM_cons, (ih st h0 h1).2]
        rfl
      rw [this]
    · rw [dfsDeps]
      simp only [h1, if_false]
      have hdep : gLoop.deps 1 = [0] := rfl
      rw [hdep]
      have : List.foldlM (fun st2 d => dfsDeps gLoop fuel d st2) st [0] = none := by
        rw [List.foldlM_cons, (ih st h0 h1).1]
        rfl
      rw [this]

theorem toposortedDependencies_gLoop :
    ∀ fuel, toposortedDependencies gLoop fuel 0 = none := by
  intro fuel
  rw [toposortedDependencies, (dfsDeps_gLoop_diverges fuel ([], []) (by simp) (by simp)).1]

/-! ## Step equations for `exec` -/

theorem exec_zero (g : Graph) (c : Call) (ctx : Ctx) (s : S) :
    exec g 0 c ctx s = .fuelOut := rfl

theorem exec_enter_top (g : Graph) (fuel n : Nat) (b : Body) (s : S) :
    exec g (fuel + 1) (.enter n b) .top s = exec g fuel (.newTxn n b) .top s := rfl

theorem exec_enter_warnOnly (g : Graph) (fuel n root : Nat) (b : Body) (s : S) :
    exec g (fuel + 1) (.enter n b) (.warnOnly root) s =
      exec g fuel (.newTxn n b) (.warnOnly root) (s.addTrace (.warn root n)) := rfl

theorem exec_enter_txn (g : Graph) (fuel n : Nat) (b : Body) (t : TxnCtx) (s : S) :
    exec g (fuel + 1) (.enter n b) (.txn t) s =
      (match markChanged t n with
       | (true, t2) => exec g fuel (.body n b) (.txn t2) s
       | (false, t2) =>
         exec g fuel (.newTxn n b) (.txn t2) (s.addTrace (.warn t.root n))) := rfl

theorem exec_newTxn (g : Graph) (fuel n : Nat) (b : Body) (ctx : Ctx) (s : S) :
    exec g (fuel + 1) (.newTxn n b) ctx s =
      (if (g.deps n).isEmpty then
        restoring ctx (exec g fuel (.body n b) (.warnOnly n) s)
      else
        match toposortedDependencies g fuel n with
        | none => .raised recursionError ctx s
        | some closure =>
          restoring ctx <|
            (exec g fuel (.body n b)
                (.txn (markChanged (mkTxnCtx g s.nextId n closure) n).2)
                { s with nextId := s.nextId + 1, trace := s.trace ++ [.buildIndex n] }).bind
              fun c2 s2 =>
                match c2 with
                | .txn t2 => exec g fuel (.walk 1) (.txn t2) s2
                | _ => .raised modelError c2 s2) := rfl

theorem exec_body_set (g : Graph) (fuel n : Nat) (v : Val) (ctx : Ctx) (s : S) :
    exec g (fuel + 1) (.body n (.setB v)) ctx s =
      exec g fuel (.listeners (g.nlisteners n) v) ctx
        { s with datum := s.datum.set n v, trace := s.trace ++ [.setApplied n v] } := rfl

theorem exec_body_emit (g : Graph) (fuel n : Nat) (v : Val) (ctx : Ctx) (s : S) :
    exec g (fuel + 1) (.body n (.emitB v)) ctx s =
      exec g fuel (.listeners (g.nlisteners n) v) ctx (s.addTrace (.emitApplied n v)) := rfl

theorem exec_listeners_nil (g : Graph) (fuel : Nat) (arg : Val) (ctx : Ctx) (s : S) :
    exec g (fuel + 1) (.listeners [] arg) ctx s = .ok ctx s := rfl

theorem exec_listeners_log (g : Graph) (fuel tag : Nat) (rest : List Listener) (arg : Val)
    (ctx : Ctx) (s : S) :
    exec g (fuel + 1) (.listeners (.log tag :: rest) arg) ctx s =
      exec g fuel (.listeners rest arg) ctx (s.addTrace (.cbLog tag arg)) := rfl

theorem exec_listeners_logDatum (g : Graph) (fuel tag m : Nat) (rest : List Listener)
    (arg : Val) (ctx : Ctx) (s : S) :
    exec g (fuel + 1) (.listeners (.logDatum tag m :: rest) arg) ctx s =
      exec g fuel (.listeners rest arg) ctx (s.addTrace (.cbLog tag (s.datumFn m))) := rfl

theorem exec_listeners_setConst (g : Graph) (fuel m : Nat) (v : Val) (rest : List Listener)
    (arg : Val) (ctx : Ctx) (s : S) :
    exec g (fuel + 1) (.listeners (.setConst m v :: rest) arg) ctx s =
      (exec g fuel (.enter m (.setB v)) ctx s).bind
        (fun c2 s2 => exec g fuel (.listeners rest arg) c2 s2) := rfl

theorem exec_listeners_setToArg (g : Graph) (fuel m : Nat) (rest : List Listener)
    (arg : Val) (ctx : Ctx) (s : S) :
    exec g (fuel + 1) (.listeners (.setToArg m :: rest) arg) ctx s =
      (exec g fuel (.enter m (.setB arg)) ctx s).bind
        (fun c2 s2 => exec g fuel (.listeners rest arg) c2 s2) := rfl

theorem exec_listeners_setIfNe (g : Graph) (fuel m : Nat) (v : Val) (rest : List Listener)
    (arg : Val) (ctx : Ctx) (s : S) :
    exec g (fuel + 1) (.listeners (.setIfNe m v :: rest) arg) ctx s =
      (if s.datumFn m = v then exec g fuel (.listeners rest arg) ctx s
       else
         (exec g fuel (.enter m (.setB v)) ctx s).bind
           (fun c2 s2 => exec g fuel (.listeners rest arg) c2 s2)) := rfl

theorem exec_listeners_emitC (g : Graph) (fuel m : Nat) (v : Val) (rest : List Listener)
    (arg : Val) (ctx : Ctx) (s : S) :
    exec g (fuel + 1) (.listeners (.emitC m v :: rest) arg) ctx s =
      (exec g fuel (.enter m (.emitB v)) ctx s).bind
        (fun c2 s2 => exec g fuel (.listeners rest arg) c2 s2) := rfl

theorem exec_listeners_raiseE (g : Graph) (fuel e : Nat) (rest : List Listener)
    (arg : Val) (ctx : Ctx) (s : S) :
    exec g (fuel + 1) (.listeners (.raiseE e :: rest) arg) ctx s = .raised e ctx s := rfl

theorem exec_walk_txn (g : Graph) (fuel i : Nat) (t : TxnCtx) (s : S) :
    exec g (fuel + 1) (.walk i) (.txn t) s =
      (if i < t.closure.length then
        if t.toRun.getD i false then
          (exec g fuel (.settle (t.closure.getD i 0)) (.txn t)
              (s.addTrace (.settled t.txnId i (t.closure.getD i 0)))).bind
            fun c2 s2 => exec g fuel (.walk (i + 1)) c2 s2
        else exec g fuel (.walk (i + 1)) (.txn t) s
      else .ok (.txn t) s) := rfl

theorem exec_walk_top (g : Graph) (fuel i : Nat) (s : S) :
    exec g (fuel + 1) (.walk i) .top s = .raised modelError .top s := rfl

theorem exec_walk_warnOnly (g : Graph) (fuel i root : Nat) (s : S) :
    exec g (fuel + 1) (.walk i) (.warnOnly root) s = .raised modelError (.warnOnly root) s := rfl

theorem exec_settle (g : Graph) (fuel n : Nat) (ctx : Ctx) (s : S) :
    exec g (fuel + 1) (.settle n) ctx s =
      (if (g.node n).isEvent then
        match (g.node n).onDone with
        | none => .ok ctx s
        | some f => exec g fuel (.emits n (f s.datumFn)) ctx s
      else
        match (g.node n).gv with
        | none => .ok ctx s
        | some f =>
          match f s.datumFn with
          | .noChange => .ok ctx (s.addTrace (.recompute n))
          | .value v => exec g fuel (.enter n (.setB v)) ctx (s.addTrace (.recompute n))) := rfl

theorem exec_emits_nil (g : Graph) (fuel n : Nat) (ctx : Ctx) (s : S) :
    exec g (fuel + 1) (.emits n []) ctx s = .ok ctx s := rfl

theorem exec_emits_cons (g : Graph) (fuel n : Nat) (p : Val) (rest : List Val)
    (ctx : Ctx) (s : S) :
    exec g (fuel + 1) (.emits n (p :: rest)) ctx s =
      (exec g fuel (.enter n (.emitB p)) ctx s).bind
        (fun c2 s2 => exec g fuel (.emits n rest) c2 s2) := rfl

/-! ## Context restoration (step 9 of the transaction algorithm) -/

/-- The identity of a context with the mutable `changed`/`toRun` scratch
flags erased: what "the same transaction" means across flag updates. -/
inductive CtxShape
  | top
  | warnOnly (root : Nat)
  | txn (txnId root : Nat) (closure : List Nat) (dependentIdxes : List (List Nat))
deriving DecidableEq, Repr

def Ctx.shape : Ctx → CtxShape
  | .top => .top
  | .warnOnly r => .warnOnly r
  | .txn t => .txn t.txnId t.root t.closure t.dependentIdxes

theorem markChanged_shape (t : TxnCtx) (n : Nat) :
    Ctx.shape (.txn (markChanged t n).2) = Ctx.shape (.txn t) := by
  rw [markChanged]
  rcases t.closure.findIdx? (· = n) with _ | idx
  · rfl
  · simp only
    split <;> rfl

theorem restoring_ctx? (ctx : Ctx) (r : Res) (c2 : Ctx) :
    (restoring ctx r).ctx? = some c2 → c2 = ctx := by
  rcases r with ⟨c, s⟩ | ⟨e, c, s⟩ | _
  · intro h
    simp [restoring, Res.ctx?] at h
    exact h.symm
  · intro h
    simp [restoring, Res.ctx?] at h
    exact h.symm
  · intro h
    simp [restoring, Res.ctx?] at h

theorem shape_txn_inv (c : Ctx) (t : TxnCtx) (h : c.shape = Ctx.shape (.txn t)) :
    ∃ t2, c = .txn t2 ∧ t2.txnId = t.txnId ∧ t2.root = t.root ∧
      t2.closure = t.closure ∧ t2.dependentIdxes = t.dependentIdxes := by
  rcases c with _ | r | t2 <;> simp [Ctx.shape] at h
  exact ⟨t2, rfl, h.1, h.2.1, h.2.2.1, h.2.2.2⟩

/-- Every engine call restores the transaction-context *identity* it was
entered with: on normal return and on a propagating exception alike, the
resulting active context is the context of entry (possibly with updated
scratch flags, which is what `Ctx.shape` erases). -/
theorem exec_shape (g : Graph) :
    ∀ fuel c ctx s c2, (exec g fuel c ctx s).ctx? = some c2 → c2.shape = ctx.shape := by
  intro fuel
  induction fuel with
  | zero => intro c ctx s c2 h; simp [exec_zero, Res.ctx?] at h
  | succ fuel ih =>
    intro c ctx s c2 h
    rcases c with ⟨n, b⟩ | ⟨n, b⟩ | ⟨n, b⟩ | ⟨ls, arg⟩ | i | n | ⟨n, ps⟩
    · -- enter
      rcases ctx with _ | root | t
      · exact ih _ _ _ _ (by rw [exec_enter_top] at h; exact h)
      · exact ih _ _ _ _ (by rw [exec_enter_warnOnly] at h; exact h)
      · rw [exec_enter_txn] at h
        rcases hmc : markChanged t n with ⟨flag, t2⟩
        rw [hmc] at h
        have hsh : Ctx.shape (.txn t2) = Ctx.shape (.txn t) := by
          have := markChanged_shape t n
          rw [hmc] at this
          exact this
        rcases flag with _ | _
        · simp only at h
          rw [← hsh]
          exact ih _ _ _ _ h
        · simp only at h
          rw [← hsh]
          exact ih _ _ _ _ h
    · -- newTxn: both branches restore the entry context exactly
      rw [exec_newTxn] at h
      by_cases hemp : (g.deps n).isEmpty
      · rw [if_pos hemp] at h
        rw [restoring_ctx? _ _ _ h]
      · rw [if_neg hemp] at h
        rcases htp : toposortedDependencies g fuel n with _ | closure
        · rw [htp] at h
          simp [Res.ctx?] at h
          rw [← h]
        · rw [htp] at h
          rw [restoring_ctx? _ _ _ h]
    · -- body
      rcases b with v | v
      · rw [exec_body_set] at h
        exact ih _ _ _ _ h
      · rw [exec_body_emit] at h
        exact ih _ _ _ _ h
    · -- listeners
      rcases ls with _ | ⟨l, rest⟩
      · rw [exec_listeners_nil] at h
        simp [Res.ctx?] at h
        rw [← h]
      · have hstep : ∀ c1 s2,
            ((exec g fuel c1 ctx s2).bind fun ca sa =>
              exec g fuel (.listeners rest arg) ca sa).ctx? = some c2 →
            c2.shape = ctx.shape := by
          intro c1 s2 hb
          rcases hr1 : exec g fuel c1 ctx s2 with ⟨ca, sa⟩ | ⟨e, ca, sa⟩ | _
          · have hsh1 : ca.shape = ctx.shape := ih _ _ _ _ (by rw [hr1]; rfl)
            rw [hr1, Res.bind_ok] at hb
            have := ih _ _ _ _ hb
            rw [this, hsh1]
          · rw [hr1, Res.bind_raised] at hb
            simp only [Res.ctx?, Option.some.injEq] at hb
            rw [← hb]
            exact ih _ _ _ _ (by rw [hr1]; rfl)
          · rw [hr1, Res.bind_fuelOut] at hb
            simp [Res.ctx?] at hb
        rcases l with tag | ⟨tag, m⟩ | ⟨m, v⟩ | m | ⟨m, v⟩ | ⟨m, v⟩ | e
        · rw [exec_listeners_log] at h
          exact ih _ _ _ _ h
        · rw [exec_listeners_logDatum] at h
          exact ih _ _ _ _ h
        · rw [exec_listeners_setConst] at h
          exact hstep _ _ h
        · rw [exec_listeners_setToArg] at h
          exact hstep _ _ h
        · rw [exec_listeners_setIfNe] at h
          by_cases hd : s.datumFn m = v
          · rw [if_pos hd] at h
            exact ih _ _ _ _ h
          · rw [if_neg hd] at h
            exact hstep _ _ h
        · rw [exec_listeners_emitC] at h
          exact hstep _ _ h
        · rw [exec_listeners_raiseE] at h
          simp [Res.ctx?] at h
          rw [← h]
    · -- walk
      rcases ctx with _ | root | t
      · rw [exec_walk_top] at h
        simp [Res.ctx?] at h
        rw [← h]
      · rw [exec_walk_warnOnly] at h
        simp [Res.ctx?] at h
        rw [← h]
      · rw [exec_walk_txn] at h
        by_cases hlen : i < t.closure.length
        · rw [if_pos hlen] at h
          by_cases hrun : t.toRun.getD i false
          · rw [if_pos hrun] at h
            rcases hr1 : exec g fuel (.settle (t.closure.getD i 0)) (.txn t)
                (s.addTrace (.settled t.txnId i (t.closure.getD i 0))) with ⟨ca, sa⟩ | ⟨e, ca, sa⟩ | _
            · have hsh1 : ca.shape = Ctx.shape (.txn t) := ih _ _ _ _ (by rw [hr1]; rfl)
              rw [hr1, Res.bind_ok] at h
              have := ih _ _ _ _ h
              rw [this, hsh1]
            · rw [hr1, Res.bind_raised] at h
              simp only [Res.ctx?, Option.some.injEq] at h
              rw [← h]
              exact ih _ _ _ _ (by rw [hr1]; rfl)
            · rw [hr1, Res.bind_fuelOut] at h
              simp [Res.ctx?] at h
          · rw [if_neg hrun] at h
            exact ih _ _ _ _ h
        · rw [if_neg hlen] at h
          simp [Res.ctx?] at h
          rw [← h]
    · -- settle
      rw [exec_settle] at h
      by_cases hev : (g.node n).isEvent
      · rw [if_pos hev] at h
        rcases hod : (g.node n).onDone with _ | f
        · rw [hod] at h
          simp [Res.ctx?] at h
          rw [← h]
        · rw [hod] at h
          simp only at h
          exact ih _ _ _ _ h
      · rw [if_neg hev] at h
        rcases hgv : (g.node n).gv with _ | f
        · rw [hgv] at h
          simp [Res.ctx?] at h
          rw [← h]
        · rw [hgv] at h
          simp only at h
          rcases hres : f s.datumFn with _ | v
          · rw [hres] at h
            simp [Res.ctx?] at h
            rw [← h]
          · rw [hres] at h
            exact ih _ _ _ _ h
    · -- emits
      rcases ps with _ | ⟨p, rest⟩
      · rw [exec_emits_nil] at h
        simp [Res.ctx?] at h
        rw [← h]
      · rw [exec_emits_cons] at h
        rcases hr1 : exec g fuel (.enter n (.emitB p)) ctx s with ⟨ca, sa⟩ | ⟨e, ca, sa⟩ | _
        · have hsh1 : ca.shape = ctx.shape := ih _ _ _ _ (by rw [hr1]; rfl)
          rw [hr1, Res.bind_ok] at h
          have := ih _ _ _ _ h
          rw [this, hsh1]
        · rw [hr1, Res.bind_raised] at h
          simp only [Res.ctx?, Option.some.injEq] at h
          rw [← h]
          exact ih _ _ _ _ (by rw [hr1]; rfl)
        · rw [hr1, Res.bind_fuelOut] at h
          simp [Res.ctx?] at h

/-! ## Per-transaction settle-walk discipline -/

/-- The closure positions at which transaction `tid` invoked a settle step,
in trace order. -/
def settlesOf (tid : Nat) (tr : List TraceEv) : List Nat :=
  tr.filterMap fun ev =>
    match ev with
    | .settled t p _ => if t = tid then some p else none
    | _ => none

theorem settlesOf_append (tid : Nat) (a b : List TraceEv) :
    settlesOf tid (a ++ b) = settlesOf tid a ++ settlesOf tid b :=
  List.filterMap_append a b _

theorem settlesOf_settled_self (tid i n : Nat) :
    settlesOf tid [.settled tid i n] = [i] := by
  simp [settlesOf, List.filterMap]

theorem settlesOf_settled_other (tid tid2 i n : Nat) (h : tid2 ≠ tid) :
    settlesOf tid [.settled tid2 i n] = [] := by
  simp [settlesOf, List.filterMap, h]

/-- Every settle event recorded so far belongs to an already-allocated
transaction id. -/
def StInv (s : S) : Prop := ∀ tid, settlesOf tid s.trace ≠ [] → tid < s.nextId

/-- An installed transaction context carries an already-allocated id. -/
def CtxOK (ctx : Ctx) (s : S) : Prop := ∀ t, ctx = .txn t → t.txnId < s.nextId

theorem ctxOK_top (s : S) : CtxOK .top s := by intro t h; cases h

theorem ctxOK_warnOnly (root : Nat) (s : S) : CtxOK (.warnOnly root) s := by
  intro t h; cases h

theorem ctxOK_txn (t : TxnCtx) (s : S) (h : t.txnId < s.nextId) : CtxOK (.txn t) s := by
  intro t2 h2
  cases h2
  exact h

/-- Trace discipline of a non-walk call: only appends to the trace, only
grows the id counter, leaves the settle record of every pre-existing
transaction untouched, produces position-sorted settle records for fresh
transactions, and preserves `StInv`. -/
def TracePres (s s2 : S) : Prop :=
  s.trace <+: s2.trace ∧ s.nextId ≤ s2.nextId ∧
    (∀ tid, tid < s.nextId → settlesOf tid s2.trace = settlesOf tid s.trace) ∧
    (∀ tid, s.nextId ≤ tid → settlesOf tid s.trace = [] →
      List.Chain' (· < ·) (settlesOf tid s2.trace)) ∧
    StInv s2

/-- Trace discipline of a walk call of transaction `tid0` starting at
position `i`: as `TracePres` but the walk's own transaction gains a
strictly increasing block of settle positions, all at least `i`. -/
def TracePresW (tid0 i : Nat) (s s2 : S) : Prop :=
  s.trace <+: s2.trace ∧ s.nextId ≤ s2.nextId ∧
    (∀ tid, tid < s.nextId → tid ≠ tid0 → settlesOf tid s2.trace = settlesOf tid s.trace) ∧
    (∃ ps, settlesOf tid0 s2.trace = settlesOf tid0 s.trace ++ ps ∧
      List.Chain' (· < ·) ps ∧ ∀ p ∈ ps, i ≤ p) ∧
    (∀ tid, s.nextId ≤ tid → tid ≠ tid0 → settlesOf tid s.trace = [] →
      List.Chain' (· < ·) (settlesOf tid s2.trace)) ∧
    StInv s2

theorem tracePres_refl (s : S) (h : StInv s) : TracePres s s := by
  refine ⟨List.prefix_refl _, le_refl _, fun _ _ => rfl, ?_, h⟩
  intro tid _ hemp
  rw [hemp]
  exact List.chain'_nil

theorem tracePres_trans (s s1 s2 : S) (h1 : TracePres s s1) (h2 : TracePres s1 s2) :
    TracePres s s2 := by
  obtain ⟨p1, m1, c1, e1, i1⟩ := h1
  obtain ⟨p2, m2, c2, e2, i2⟩ := h2
  refine ⟨p1.trans p2, m1.trans m2, ?_, ?_, i2⟩
  · intro tid hlt
    rw [c2 tid (lt_of_lt_of_le hlt m1), c1 tid hlt]
  · intro tid hge hemp
    rcases lt_or_ge tid s1.nextId with hlt1 | hge1
    · rw [c2 tid hlt1]
      exact e1 tid hge hemp
    · by_cases hemp1 : settlesOf tid s1.trace = []
      · exact e2 tid hge1 hemp1
      · exact absurd (i1 tid hemp1) (not_lt.mpr hge1)

/-- A state step that appends no settle events preserves the discipline. -/
theorem tracePres_extend (s s2 : S) (hpre : s.trace <+: s2.trace)
    (hid : s.nextId ≤ s2.nextId)
    (hsame : ∀ tid, settlesOf tid s2.trace = settlesOf tid s.trace)
    (hst : StInv s) : TracePres s s2 := by
  refine ⟨hpre, hid, fun tid _ => hsame tid, ?_, ?_⟩
  · intro tid _ hemp
    rw [hsame tid, hemp]
    exact List.chain'_nil
  · intro tid hne
    rw [hsame tid] at hne
    exact lt_of_lt_of_le (hst tid hne) hid

theorem settlesOf_addTrace_nonSettle (tid : Nat) (s : S) (ev : TraceEv)
    (hev : ∀ tid2, settlesOf tid2 [ev] = []) :
    settlesOf tid (s.addTrace ev).trace = settlesOf tid s.trace := by
  show settlesOf tid (s.trace ++ [ev]) = settlesOf tid s.trace
  rw [settlesOf_append, hev tid, List.append_nil]

theorem tracePres_addTrace (s : S) (ev : TraceEv)
    (hev : ∀ tid2, settlesOf tid2 [ev] = []) (hst : StInv s) :
    TracePres s (s.addTrace ev) :=
  tracePres_extend s _ (by exact ⟨[ev], rfl⟩) (le_refl _)
    (fun tid => settlesOf_addTrace_nonSettle tid s ev hev) hst

theorem stInv_addSettled (s : S) (tid0 i n : Nat) (h0 : tid0 < s.nextId) (hst : StInv s) :
    StInv (s.addTrace (.settled tid0 i n)) := by
  intro tid hne
  show tid < s.nextId
  rw [show (s.addTrace (.settled tid0 i n)).trace = s.trace ++ [.settled tid0 i n] from rfl,
    settlesOf_append] at hne
  by_cases htid : tid = tid0
  · rw [htid]; exact h0
  · rw [settlesOf_settled_other tid tid0 i n (fun h => htid h.symm), List.append_nil] at hne
    exact hst tid hne

/-- Compose a walk leg after a plain leg: the body of a fresh transaction
followed by that transaction's walk satisfies the non-walk discipline. -/
theorem tracePres_of_walkLeg (s sb s2 : S) (tid0 : Nat) (i : Nat)
    (htid0 : s.nextId ≤ tid0)
    (hempb : settlesOf tid0 sb.trace = [])
    (h1 : TracePres s sb) (h2 : TracePresW tid0 i sb s2) : TracePres s s2 := by
  obtain ⟨p1, m1, c1, e1, i1⟩ := h1
  obtain ⟨p2, m2, c2, d2, e2, i2⟩ := h2
  refine ⟨p1.trans p2, m1.trans m2, ?_, ?_, i2⟩
  · intro tid hlt
    have hne : tid ≠ tid0 := fun h => absurd htid0 (not_le.mpr (h ▸ hlt))
    rw [c2 tid (lt_of_lt_of_le hlt m1) hne, c1 tid hlt]
  · intro tid hge hemp
    by_cases htid : tid = tid0
    · subst htid
      obtain ⟨ps, hps, hch, _⟩ := d2
      rw [hps, hempb, List.nil_append]
      exact hch
    · rcases lt_or_ge tid sb.nextId with hlt1 | hge1
      · rw [c2 tid hlt1 htid]
        exact e1 tid hge hemp
      · by_cases hemp1 : settlesOf tid sb.trace = []
        · exact e2 tid hge1 htid hemp1
        · exact absurd (i1 tid hemp1) (not_lt.mpr hge1)

theorem tracePresW_refl (tid0 i : Nat) (s : S) (h : StInv s) : TracePresW tid0 i s s := by
  refine ⟨List.prefix_refl _, le_refl _, fun _ _ _ => rfl, ⟨[], by simp, List.chain'_nil, by simp⟩,
    ?_, h⟩
  intro tid _ _ hemp
  rw [hemp]
  exact List.chain'_nil

theorem tracePresW_mono_idx (tid0 i : Nat) (s s2 : S) (h : TracePresW tid0 (i + 1) s s2) :
    TracePresW tid0 i s s2 := by
  obtain ⟨p, m, c, ⟨ps, hps, hch, hbd⟩, e, hi⟩ := h
  exact ⟨p, m, c, ⟨ps, hps, hch, fun q hq => le_trans (Nat.le_succ i) (hbd q hq)⟩, e, hi⟩

/-- One step of the walk: record a settle at position `i`, run the settle
(a non-walk leg), then the rest of the walk from `i + 1`. -/
theorem tracePresW_build (tid0 i n : Nat) (s sa s2 : S)
    (htid0 : tid0 < s.nextId)
    (h1 : TracePres (s.addTrace (.settled tid0 i n)) sa)
    (h2 : TracePresW tid0 (i + 1) sa s2) :
    TracePresW tid0 i s s2 := by
  obtain ⟨p1, m1, c1, e1, i1⟩ := h1
  obtain ⟨p2, m2, c2, d2, e2, i2⟩ := h2
  have hs1tr : (s.addTrace (.settled tid0 i n)).trace = s.trace ++ [.settled tid0 i n] := rfl
  have hs1id : (s.addTrace (.settled tid0 i n)).nextId = s.nextId := rfl
  have hself : settlesOf tid0 (s.addTrace (.settled tid0 i n)).trace =
      settlesOf tid0 s.trace ++ [i] := by
    rw [hs1tr, settlesOf_append, settlesOf_settled_self]
  have hother : ∀ tid, tid ≠ tid0 →
      settlesOf tid (s.addTrace (.settled tid0 i n)).trace = settlesOf tid s.trace := by
    intro tid htid
    rw [hs1tr, settlesOf_append, settlesOf_settled_other tid tid0 i n (fun h => htid h.symm),
      List.append_nil]
  refine ⟨?_, ?_, ?_, ?_, ?_, i2⟩
  · have h0 : s.trace <+: (s.addTrace (.settled tid0 i n)).trace :=
      ⟨[.settled tid0 i n], hs1tr.symm⟩
    exact h0.trans (p1.trans p2)
  · rw [← hs1id]
    exact m1.trans m2
  · intro tid hlt htid
    rw [c2 tid (lt_of_lt_of_le (hs1id ▸ hlt) m1) htid, c1 tid (hs1id ▸ hlt), hother tid htid]
  · obtain ⟨ps, hps, hch, hbd⟩ := d2
    refine ⟨i :: ps, ?_, ?_, ?_⟩
    · rw [hps, c1 tid0 (hs1id ▸ htid0), hself, List.append_assoc]
      rfl
    · rw [List.chain'_cons']
      refine ⟨?_, hch⟩
      intro b hb
      exact lt_of_lt_of_le (Nat.lt_succ_self i) (hbd b (List.mem_of_mem_head? hb))
    · intro q hq
      rcases List.mem_cons.mp hq with hq | hq
      · rw [hq]
      · exact le_trans (Nat.le_succ i) (hbd q hq)
  · intro tid hge htid hemp
    have hemp1 : settlesOf tid (s.addTrace (.settled tid0 i n)).trace = [] := by
      rw [hother tid htid, hemp]
    rcases lt_or_ge tid sa.nextId with hlt1 | hge1
    · rw [c2 tid hlt1 htid]
      exact e1 tid (hs1id ▸ hge) hemp1
    · by_cases hemp2 : settlesOf tid sa.trace = []
      · exact e2 tid hge1 htid hemp2
      · exact absurd (i1 tid hemp2) (not_lt.mpr hge1)

/-- The discipline a call promises, by call kind: walks of an installed
transaction follow `TracePresW` at their own transaction id, everything
else follows `TracePres`. -/
def TracePresCall : Call → Ctx → S → S → Prop
  | .walk i, .txn t, s, s2 => TracePresW t.txnId i s s2
  | _, _, s, s2 => TracePres s s2

theorem restoring_state? (ctx : Ctx) (r : Res) : (restoring ctx r).state? = r.state? := by
  rcases r with ⟨c, s⟩ | ⟨e, c, s⟩ | _ <;> rfl

theorem stInv_addTrace (s : S) (ev : TraceEv)
    (hev : ∀ tid2, settlesOf tid2 [ev] = []) (h : StInv s) : StInv (s.addTrace ev) := by
  intro tid hne
  rw [settlesOf_addTrace_nonSettle tid s ev hev] at hne
  exact h tid hne

theorem ctxOK_mono (ctx : Ctx) (s s2 : S) (h : CtxOK ctx s) (hle : s.nextId ≤ s2.nextId) :
    CtxOK ctx s2 := by
  intro t ht
  exact lt_of_lt_of_le (h t ht) hle

theorem ctxOK_of_shape (ctx ca : Ctx) (s sa : S) (hsh : ca.shape = ctx.shape)
    (h : CtxOK ctx s) (hle : s.nextId ≤ sa.nextId) : CtxOK ca sa := by
  intro t2 ht2
  subst ht2
  obtain ⟨t, hctx, hid, _, _, _⟩ := shape_txn_inv ctx t2 hsh.symm
  exact lt_of_lt_of_le (hid ▸ h t hctx) hle

theorem tracePres_nextId_le (s s2 : S) (h : TracePres s s2) : s.nextId ≤ s2.nextId := h.2.1

theorem tracePres_stInv (s s2 : S) (h : TracePres s s2) : StInv s2 := h.2.2.2.2

theorem tracePresCall_enter (n : Nat) (b : Body) (ctx : Ctx) (s s2 : S) :
    TracePresCall (.enter n b) ctx s s2 = TracePres s s2 := by cases ctx <;> rfl

theorem tracePresCall_newTxn (n : Nat) (b : Body) (ctx : Ctx) (s s2 : S) :
    TracePresCall (.newTxn n b) ctx s s2 = TracePres s s2 := by cases ctx <;> rfl

theorem tracePresCall_body (n : Nat) (b : Body) (ctx : Ctx) (s s2 : S) :
    TracePresCall (.body n b) ctx s s2 = TracePres s s2 := by cases ctx <;> rfl

theorem tracePresCall_listeners (ls : List Listener) (arg : Val) (ctx : Ctx) (s s2 : S) :
    TracePresCall (.listeners ls arg) ctx s s2 = TracePres s s2 := by cases ctx <;> rfl

theorem tracePresCall_settle (n : Nat) (ctx : Ctx) (s s2 : S) :
    TracePresCall (.settle n) ctx s s2 = TracePres s s2 := by cases ctx <;> rfl

theorem tracePresCall_emits (n : Nat) (ps : List Val) (ctx : Ctx) (s s2 : S) :
    TracePresCall (.emits n ps) ctx s s2 = TracePres s s2 := by cases ctx <;> rfl

theorem tracePresCall_walk_txn (i : Nat) (t : TxnCtx) (s s2 : S) :
    TracePresCall (.walk i) (.txn t) s s2 = TracePresW t.txnId i s s2 := rfl

/-- Master trace discipline of the engine: every call obeys
`TracePresCall`.  In particular the settle events of every transaction are
recorded at strictly increasing closure positions (proved by mutual
composition over the interpreter), which is the formal core of the
"each downstream node settles at most once per transaction" property. -/
theorem exec_frame (g : Graph) :
    ∀ fuel c ctx s, CtxOK ctx s → StInv s →
      ∀ s2, (exec g fuel c ctx s).state? = some s2 → TracePresCall c ctx s s2 := by
  intro fuel
  induction fuel with
  | zero =>
    intro c ctx s _ _ s2 h
    simp [exec_zero, Res.state?] at h
  | succ fuel ih =>
    intro c ctx s hCtx hSt s2 h
    have hwarnEv : ∀ r n2 tid2, settlesOf tid2 [TraceEv.warn r n2] = [] := by
      intro r n2 tid2; simp [settlesOf]
    have hbuildEv : ∀ r tid2, settlesOf tid2 [TraceEv.buildIndex r] = [] := by
      intro r tid2; simp [settlesOf]
    have hsetEv : ∀ n2 v tid2, settlesOf tid2 [TraceEv.setApplied n2 v] = [] := by
      intro n2 v tid2; simp [settlesOf]
    have hemitEv : ∀ n2 v tid2, settlesOf tid2 [TraceEv.emitApplied n2 v] = [] := by
      intro n2 v tid2; simp [settlesOf]
    have hlogEv : ∀ tg v tid2, settlesOf tid2 [TraceEv.cbLog tg v] = [] := by
      intro tg v tid2; simp [settlesOf]
    have hrecEv : ∀ n2 tid2, settlesOf tid2 [TraceEv.recompute n2] = [] := by
      intro n2 tid2; simp [settlesOf]
    rcases c with ⟨n, b⟩ | ⟨n, b⟩ | ⟨n, b⟩ | ⟨ls, arg⟩ | i | n | ⟨n, ps⟩
    · -- enter
      rw [tracePresCall_enter]
      rcases ctx with _ | root | t
      · rw [exec_enter_top] at h
        have := ih (.newTxn n b) .top s hCtx hSt s2 h
        rw [tracePresCall_newTxn] at this
        exact this
      · rw [exec_enter_warnOnly] at h
        have hSt1 : StInv (s.addTrace (.warn root n)) :=
          stInv_addTrace s _ (hwarnEv root n) hSt
        have := ih (.newTxn n b) (.warnOnly root) (s.addTrace (.warn root n))
          (ctxOK_warnOnly root _) hSt1 s2 h
        rw [tracePresCall_newTxn] at this
        exact tracePres_trans _ _ _ (tracePres_addTrace s _ (hwarnEv root n) hSt) this
      · rw [exec_enter_txn] at h
        rcases hmc : markChanged t n with ⟨flag, t2⟩
        rw [hmc] at h
        have hsh : Ctx.shape (.txn t2) = Ctx.shape (.txn t) := by
          have := markChanged_shape t n
          rw [hmc] at this
          exact this
        have hid2 : t2.txnId = t.txnId := by
          obtain ⟨t3, ht3, hid3, _, _, _⟩ := shape_txn_inv (.txn t2) t hsh
          cases ht3
          exact hid3
        have hCtx2 : CtxOK (.txn t2) s :=
          ctxOK_txn t2 s (hid2 ▸ hCtx t rfl)
        rcases flag with _ | _
        · simp only at h
          have hSt1 : StInv (s.addTrace (.warn t.root n)) :=
            stInv_addTrace s _ (hwarnEv t.root n) hSt
          have := ih (.newTxn n b) (.txn t2) (s.addTrace (.warn t.root n))
            (ctxOK_mono _ _ _ hCtx2 (le_refl _)) hSt1 s2 h
          rw [tracePresCall_newTxn] at this
          exact tracePres_trans _ _ _ (tracePres_addTrace s _ (hwarnEv t.root n) hSt) this
        · simp only at h
          have := ih (.body n b) (.txn t2) s hCtx2 hSt s2 h
          rw [tracePresCall_body] at this
          exact this
    · -- newTxn
      rw [tracePresCall_newTxn]
      rw [exec_newTxn] at h
      by_cases hemp : (g.deps n).isEmpty
      · rw [if_pos hemp, restoring_state?] at h
        have := ih (.body n b) (.warnOnly n) s (ctxOK_warnOnly n s) hSt s2 h
        rw [tracePresCall_body] at this
        exact this
      · rw [if_neg hemp] at h
        rcases htp : toposortedDependencies g fuel n with _ | closure
        · rw [htp] at h
          simp [Res.state?] at h
          rw [← h]
          exact tracePres_refl s hSt
        · rw [htp] at h
          simp only at h
          set t1 := (markChanged (mkTxnCtx g s.nextId n closure) n).2 with ht1
          set s1 : S :=
            { s with nextId := s.nextId + 1, trace := s.trace ++ [.buildIndex n] } with hs1
          have hs1tr : s1.trace = s.trace ++ [.buildIndex n] := rfl
          have hs1id : s1.nextId = s.nextId + 1 := rfl
          have hsame1 : ∀ tid, settlesOf tid s1.trace = settlesOf tid s.trace := by
            intro tid
            rw [hs1tr, settlesOf_append, hbuildEv n tid, List.append_nil]
          have hSt1 : StInv s1 := by
            intro tid hne
            rw [hsame1 tid] at hne
            exact lt_of_lt_of_le (hSt tid hne) (by rw [hs1id]; exact Nat.le_succ _)
          have hleg1 : TracePres s s1 :=
            tracePres_extend s s1 ⟨[.buildIndex n], hs1tr.symm⟩
              (by rw [hs1id]; exact Nat.le_succ _) hsame1 hSt
          have ht1id : t1.txnId = s.nextId := by
            have := markChanged_shape (mkTxnCtx g s.nextId n closure) n
            obtain ⟨t3, ht3, hid3, _, _, _⟩ :=
              shape_txn_inv (.txn t1) (mkTxnCtx g s.nextId n closure) this
            cases ht3
            exact hid3
          have hCtx1 : CtxOK (.txn t1) s1 :=
            ctxOK_txn t1 s1 (by rw [ht1id, hs1id]; exact Nat.lt_succ_self _)
          rcases hb : exec g fuel (.body n b) (.txn t1) s1 with ⟨c2, sb⟩ | ⟨e, c2, sb⟩ | _
          · have hbody := ih (.body n b) (.txn t1) s1 hCtx1 hSt1 sb (by rw [hb]; rfl)
            rw [tracePresCall_body] at hbody
            have hsh := exec_shape g fuel (.body n b) (.txn t1) s1 c2 (by rw [hb]; rfl)
            obtain ⟨t2, hc2, hid3, _, _, _⟩ := shape_txn_inv c2 t1 hsh
            subst hc2
            rw [hb, Res.bind_ok] at h
            simp only [restoring_state?] at h
            have hCtx2 : CtxOK (.txn t2) sb :=
              ctxOK_txn t2 sb
                (by
                  rw [hid3, ht1id]
                  exact lt_of_lt_of_le (hs1id ▸ Nat.lt_succ_self s.nextId)
                    (tracePres_nextId_le _ _ hbody))
            have hwalk := ih (.walk 1) (.txn t2) sb hCtx2 (tracePres_stInv _ _ hbody) s2 h
            rw [tracePresCall_walk_txn, hid3, ht1id] at hwalk
            have hempb : settlesOf s.nextId sb.trace = [] := by
              have hpres := hbody.2.2.1 s.nextId (by rw [hs1id]; exact Nat.lt_succ_self _)
              rw [hpres, hsame1]
              by_cases hcase : settlesOf s.nextId s.trace = []
              · exact hcase
              · exact absurd (hSt _ hcase) (lt_irrefl _)
            exact tracePres_of_walkLeg s sb s2 s.nextId 1 (le_refl _) hempb
              (tracePres_trans _ _ _ hleg1 hbody) hwalk
          · rw [hb, Res.bind_raised] at h
            rw [restoring_state?] at h
            simp only [Res.state?, Option.some.injEq] at h
            have hbody := ih (.body n b) (.txn t1) s1 hCtx1 hSt1 sb (by rw [hb]; rfl)
            rw [tracePresCall_body] at hbody
            rw [← h]
            exact tracePres_trans _ _ _ hleg1 hbody
          · rw [hb, Res.bind_fuelOut] at h
            simp [restoring, Res.state?] at h
    · -- body
      rw [tracePresCall_body]
      rcases b with v | v
      · rw [exec_body_set] at h
        set s1 : S :=
          { s with datum := s.datum.set n v, trace := s.trace ++ [.setApplied n v] } with hs1
        have hs1tr : s1.trace = s.trace ++ [.setApplied n v] := rfl
        have hsame1 : ∀ tid, settlesOf tid s1.trace = settlesOf tid s.trace := by
          intro tid
          rw [hs1tr, settlesOf_append, hsetEv n v tid, List.append_nil]
        have hSt1 : StInv s1 := by
          intro tid hne
          rw [hsame1 tid] at hne
          exact hSt tid hne
        have hleg1 : TracePres s s1 :=
          tracePres_extend s s1 ⟨[.setApplied n v], hs1tr.symm⟩ (le_refl _) hsame1 hSt
        have := ih (.listeners (g.nlisteners n) v) ctx s1
          (ctxOK_mono _ _ _ hCtx (le_refl _)) hSt1 s2 h
        rw [tracePresCall_listeners] at this
        exact tracePres_trans _ _ _ hleg1 this
      · rw [exec_body_emit] at h
        have hSt1 : StInv (s.addTrace (.emitApplied n v)) :=
          stInv_addTrace s _ (hemitEv n v) hSt
        have := ih (.listeners (g.nlisteners n) v) ctx (s.addTrace (.emitApplied n v))
          (ctxOK_mono _ _ _ hCtx (le_refl _)) hSt1 s2 h
        rw [tracePresCall_listeners] at this
        exact tracePres_trans _ _ _ (tracePres_addTrace s _ (hemitEv n v) hSt) this
    · -- listeners
      rw [tracePresCall_listeners]
      rcases ls with _ | ⟨l, rest⟩
      · rw [exec_listeners_nil] at h
        simp [Res.state?] at h
        rw [← h]
        exact tracePres_refl s hSt
      · have hstep : ∀ m bspec s3,
            ((exec g fuel (.enter m bspec) ctx s).bind fun ca sa =>
              exec g fuel (.listeners rest arg) ca sa).state? = some s3 →
            TracePres s s3 := by
          intro m bspec s3 hbnd
          rcases hr1 : exec g fuel (.enter m bspec) ctx s with ⟨ca, sa⟩ | ⟨e, ca, sa⟩ | _
          · rw [hr1, Res.bind_ok] at hbnd
            have h1 := ih (.enter m bspec) ctx s hCtx hSt sa (by rw [hr1]; rfl)
            rw [tracePresCall_enter] at h1
            have hsh := exec_shape g fuel (.enter m bspec) ctx s ca (by rw [hr1]; rfl)
            have hCtx2 : CtxOK ca sa :=
              ctxOK_of_shape ctx ca s sa hsh hCtx (tracePres_nextId_le _ _ h1)
            have h2 := ih (.listeners rest arg) ca sa hCtx2 (tracePres_stInv _ _ h1) s3 hbnd
            rw [tracePresCall_listeners] at h2
            exact tracePres_trans _ _ _ h1 h2
          · rw [hr1, Res.bind_raised] at hbnd
            simp only [Res.state?, Option.some.injEq] at hbnd
            have h1 := ih (.enter m bspec) ctx s hCtx hSt sa (by rw [hr1]; rfl)
            rw [tracePresCall_enter] at h1
            rw [← hbnd]
            exact h1
          · rw [hr1, Res.bind_fuelOut] at hbnd
            simp [Res.state?] at hbnd
        rcases l with tag | ⟨tag, m⟩ | ⟨m, v⟩ | m | ⟨m, v⟩ | ⟨m, v⟩ | e
        · rw [exec_listeners_log] at h
          have hSt1 : StInv (s.addTrace (.cbLog tag arg)) :=
            stInv_addTrace s _ (hlogEv tag arg) hSt
          have := ih (.listeners rest arg) ctx (s.addTrace (.cbLog tag arg))
            (ctxOK_mono _ _ _ hCtx (le_refl _)) hSt1 s2 h
          rw [tracePresCall_listeners] at this
          exact tracePres_trans _ _ _ (tracePres_addTrace s _ (hlogEv tag arg) hSt) this
        · rw [exec_listeners_logDatum] at h
          have hSt1 : StInv (s.addTrace (.cbLog tag (s.datumFn m))) :=
            stInv_addTrace s _ (hlogEv tag _) hSt
          have := ih (.listeners rest arg) ctx (s.addTrace (.cbLog tag (s.datumFn m)))
            (ctxOK_mono _ _ _ hCtx (le_refl _)) hSt1 s2 h
          rw [tracePresCall_listeners] at this
          exact tracePres_trans _ _ _ (tracePres_addTrace s _ (hlogEv tag _) hSt) this
        · rw [exec_listeners_setConst] at h
          exact hstep m (.setB v) s2 h
        · rw [exec_listeners_setToArg] at h
          exact hstep m (.setB arg) s2 h
        · rw [exec_listeners_setIfNe] at h
          by_cases hd : s.datumFn m = v
          · rw [if_pos hd] at h
            have := ih (.listeners rest arg) ctx s hCtx hSt s2 h
            rw [tracePresCall_listeners] at this
            exact this
          · rw [if_neg hd] at h
            exact hstep m (.setB v) s2 h
        · rw [exec_listeners_emitC] at h
          exact hstep m (.emitB v) s2 h
        · rw [exec_listeners_raiseE] at h
          simp [Res.state?] at h
          rw [← h]
          exact tracePres_refl s hSt
    · -- walk
      rcases ctx with _ | root | t
      · rw [exec_walk_top] at h
        simp [Res.state?] at h
        rw [show TracePresCall (.walk i) .top s s2 = TracePres s s2 from rfl, ← h]
        exact tracePres_refl s hSt
      · rw [exec_walk_warnOnly] at h
        simp [Res.state?] at h
        rw [show TracePresCall (.walk i) (.warnOnly root) s s2 = TracePres s s2 from rfl, ← h]
        exact tracePres_refl s hSt
      · rw [tracePresCall_walk_txn]
        have htid : t.txnId < s.nextId := hCtx t rfl
        rw [exec_walk_txn] at h
        by_cases hlen : i < t.closure.length
        · rw [if_pos hlen] at h
          by_cases hrun : t.toRun.getD i false
          · rw [if_pos hrun] at h
            set n0 := t.closure.getD i 0 with hn0
            set s1 := s.addTrace (.settled t.txnId i n0) with hs1def
            have hSt1 : StInv s1 := stInv_addSettled s t.txnId i n0 htid hSt
            have hCtx1 : CtxOK (.txn t) s1 := ctxOK_txn t s1 htid
            rcases hr1 : exec g fuel (.settle n0) (.txn t) s1 with ⟨ca, sa⟩ | ⟨e, ca, sa⟩ | _
            · rw [hr1, Res.bind_ok] at h
              have h1 := ih (.settle n0) (.txn t) s1 hCtx1 hSt1 sa (by rw [hr1]; rfl)
              rw [tracePresCall_settle] at h1
              have hsh := exec_shape g fuel (.settle n0) (.txn t) s1 ca (by rw [hr1]; rfl)
              obtain ⟨t2, hca, hid2, _, _, _⟩ := shape_txn_inv ca t hsh
              subst hca
              have hCtx2 : CtxOK (.txn t2) sa :=
                ctxOK_txn t2 sa
                  (by rw [hid2]; exact lt_of_lt_of_le htid (tracePres_nextId_le s1 sa h1))
              have h2 := ih (.walk (i + 1)) (.txn t2) sa hCtx2 (tracePres_stInv _ _ h1) s2 h
              rw [tracePresCall_walk_txn, hid2] at h2
              exact tracePresW_build t.txnId i n0 s sa s2 htid h1 h2
            · rw [hr1, Res.bind_raised] at h
              simp only [Res.state?, Option.some.injEq] at h
              have h1 := ih (.settle n0) (.txn t) s1 hCtx1 hSt1 sa (by rw [hr1]; rfl)
              rw [tracePresCall_settle] at h1
              rw [← h]
              exact tracePresW_build t.txnId i n0 s sa sa htid h1
                (tracePresW_refl t.txnId (i + 1) sa (tracePres_stInv _ _ h1))
            · rw [hr1, Res.bind_fuelOut] at h
              simp [Res.state?] at h
          · rw [if_neg hrun] at h
            have := ih (.walk (i + 1)) (.txn t) s hCtx hSt s2 h
            rw [tracePresCall_walk_txn] at this
            exact tracePresW_mono_idx t.txnId i s s2 this
        · rw [if_neg hlen] at h
          simp [Res.state?] at h
          rw [← h]
          exact tracePresW_refl t.txnId i s hSt
    · -- settle
      rw [tracePresCall_settle]
      rw [exec_settle] at h
      by_cases hev : (g.node n).isEvent
      · rw [if_pos hev] at h
        rcases hod : (g.node n).onDone with _ | f
        · rw [hod] at h
          simp [Res.state?] at h
          rw [← h]
          exact tracePres_refl s hSt
        · rw [hod] at h
          simp only at h
          have := ih (.emits n (f s.datumFn)) ctx s hCtx hSt s2 h
          rw [tracePresCall_emits] at this
          exact this
      · rw [if_neg hev] at h
        rcases hgv : (g.node n).gv with _ | f
        · rw [hgv] at h
          simp [Res.state?] at h
          rw [← h]
          exact tracePres_refl s hSt
        · rw [hgv] at h
          simp only at h
          rcases hres : f s.datumFn with _ | v
          · rw [hres] at h
            simp [Res.state?] at h
            rw [← h]
            exact tracePres_addTrace s _ (hrecEv n) hSt
          · rw [hres] at h
            have hSt1 : StInv (s.addTrace (.recompute n)) :=
              stInv_addTrace s _ (hrecEv n) hSt
            have := ih (.enter n (.setB v)) ctx (s.addTrace (.recompute n))
              (ctxOK_mono _ _ _ hCtx (le_refl _)) hSt1 s2 h
            rw [tracePresCall_enter] at this
            exact tracePres_trans _ _ _ (tracePres_addTrace s _ (hrecEv n) hSt) this
    · -- emits
      rw [tracePresCall_emits]
      rcases ps with _ | ⟨p, rest⟩
      · rw [exec_emits_nil] at h
        simp [Res.state?] at h
        rw [← h]
        exact tracePres_refl s hSt
      · rw [exec_emits_cons] at h
        rcases hr1 : exec g fuel (.enter n (.emitB p)) ctx s with ⟨ca, sa⟩ | ⟨e, ca, sa⟩ | _
        · rw [hr1, Res.bind_ok] at h
          have h1 := ih (.enter n (.emitB p)) ctx s hCtx hSt sa (by rw [hr1]; rfl)
          rw [tracePresCall_enter] at h1
          have hsh := exec_shape g fuel (.enter n (.emitB p)) ctx s ca (by rw [hr1]; rfl)
          have hCtx2 : CtxOK ca sa :=
            ctxOK_of_shape ctx ca s sa hsh hCtx (tracePres_nextId_le _ _ h1)
          have h2 := ih (.emits n rest) ca sa hCtx2 (tracePres_stInv _ _ h1) s2 h
          rw [tracePresCall_emits] at h2
          exact tracePres_trans _ _ _ h1 h2
        · rw [hr1, Res.bind_raised] at h
          simp only [Res.state?, Option.some.injEq] at h
          have h1 := ih (.enter n (.emitB p)) ctx s hCtx hSt sa (by rw [hr1]; rfl)
          rw [tracePresCall_enter] at h1
          rw [← h]
          exact h1
        · rw [hr1, Res.bind_fuelOut] at h
          simp [Res.state?] at h

/-! ## Auxiliary engine lemmas -/

theorem markChanged_of_notMem (t : TxnCtx) (n : Nat) (h : n ∉ t.closure) :
    markChanged t n = (false, t) := by
  rw [markChanged]
  have hfind : t.closure.findIdx? (fun x => decide (x = n)) = none := by
    rw [List.findIdx?_eq_none_iff]
    intro x hx
    simp only [decide_eq_false_iff_not]
    intro hxe
    exact h (hxe ▸ hx)
  rw [hfind]

/-- A dependency index is only ever built for a root that has dependents:
the `buildIndex` events of any reachable trace all name roots with a
non-empty `deps` list. -/
theorem exec_buildIndexOK (g : Graph) :
    ∀ fuel c ctx s,
      (∀ r, TraceEv.buildIndex r ∈ s.trace → (g.deps r).isEmpty = false) →
      ∀ s2, (exec g fuel c ctx s).state? = some s2 →
      ∀ r, TraceEv.buildIndex r ∈ s2.trace → (g.deps r).isEmpty = false := by
  intro fuel
  induction fuel with
  | zero =>
    intro c ctx s _ s2 h
    simp [exec_zero, Res.state?] at h
  | succ fuel ih =>
    intro c ctx s hInv s2 h
    have haddInv : ∀ (ev : TraceEv), (∀ r, ev ≠ .buildIndex r) →
        ∀ r, TraceEv.buildIndex r ∈ (s.addTrace ev).trace → (g.deps r).isEmpty = false := by
      intro ev hev r hmem
      rcases List.mem_append.mp hmem with hmem | hmem
      · exact hInv r hmem
      · have : TraceEv.buildIndex r = ev := by simpa using hmem
        exact absurd this.symm (hev r)
    rcases c with ⟨n, b⟩ | ⟨n, b⟩ | ⟨n, b⟩ | ⟨ls, arg⟩ | i | n | ⟨n, ps⟩
    · -- enter
      rcases ctx with _ | root | t
      · rw [exec_enter_top] at h
        exact ih _ _ _ hInv s2 h
      · rw [exec_enter_warnOnly] at h
        exact ih _ _ _ (haddInv _ (fun r hr => by cases hr)) s2 h
      · rw [exec_enter_txn] at h
        rcases hmc : markChanged t n with ⟨flag, t2⟩
        rw [hmc] at h
        rcases flag with _ | _
        · simp only at h
          exact ih _ _ _ (haddInv _ (fun r hr => by cases hr)) s2 h
        · simp only at h
          exact ih _ _ _ hInv s2 h
    · -- newTxn
      rw [exec_newTxn] at h
      by_cases hemp : (g.deps n).isEmpty
      · rw [if_pos hemp, restoring_state?] at h
        exact ih _ _ _ hInv s2 h
      · rw [if_neg hemp] at h
        rcases htp : toposortedDependencies g fuel n with _ | closure
        · rw [htp] at h
          simp [Res.state?] at h
          rw [← h]
          exact hInv
        · rw [htp] at h
          simp only at h
          have hInv1 : ∀ r, TraceEv.buildIndex r ∈
              (s.trace ++ [TraceEv.buildIndex n]) → (g.deps r).isEmpty = false := by
            intro r hmem
            rcases List.mem_append.mp hmem with hmem | hmem
            · exact hInv r hmem
            · have : TraceEv.buildIndex r = TraceEv.buildIndex n := by simpa using hmem
              cases this
              exact Bool.not_eq_true _ ▸ (by simpa using hemp)
          rcases hb : exec g fuel (.body n b)
              (.txn (markChanged (mkTxnCtx g s.nextId n closure) n).2)
              { s with nextId := s.nextId + 1, trace := s.trace ++ [.buildIndex n] } with
            ⟨c2, sb⟩ | ⟨e, c2, sb⟩ | _
          · have hInvb := ih _ _ _ hInv1 sb (by rw [hb]; rfl)
            rw [hb, Res.bind_ok] at h
            rcases c2 with _ | root | t2
            · simp [restoring, Res.state?] at h
              rw [← h]
              exact hInvb
            · simp [restoring, Res.state?] at h
              rw [← h]
              exact hInvb
            · simp only at h
              rw [restoring_state?] at h
              exact ih _ _ _ hInvb s2 h
          · rw [hb, Res.bind_raised] at h
            rw [restoring_state?] at h
            simp only [Res.state?, Option.some.injEq] at h
            rw [← h]
            exact ih _ _ _ hInv1 sb (by rw [hb]; rfl)
          · rw [hb, Res.bind_fuelOut] at h
            simp [restoring, Res.state?] at h
    · -- body
      rcases b with v | v
      · rw [exec_body_set] at h
        refine ih _ _ _ ?_ s2 h
        intro r hmem
        rcases List.mem_append.mp hmem with hmem | hmem
        · exact hInv r hmem
        · simp at hmem
      · rw [exec_body_emit] at h
        exact ih _ _ _ (haddInv _ (fun r hr => by cases hr)) s2 h
    · -- listeners
      rcases ls with _ | ⟨l, rest⟩
      · rw [exec_listeners_nil] at h
        simp [Res.state?] at h
        rw [← h]
        exact hInv
      · have hstep : ∀ m bspec,
            ((exec g fuel (.enter m bspec) ctx s).bind fun ca sa =>
              exec g fuel (.listeners rest arg) ca sa).state? = some s2 →
            ∀ r, TraceEv.buildIndex r ∈ s2.trace → (g.deps r).isEmpty = false := by
          intro m bspec hbnd
          rcases hr1 : exec g fuel (.enter m bspec) ctx s with ⟨ca, sa⟩ | ⟨e, ca, sa⟩ | _
          · rw [hr1, Res.bind_ok] at hbnd
            exact ih _ _ _ (ih _ _ _ hInv sa (by rw [hr1]; rfl)) s2 hbnd
          · rw [hr1, Res.bind_raised] at hbnd
            simp only [Res.state?, Option.some.injEq] at hbnd
            rw [← hbnd]
            exact ih _ _ _ hInv sa (by rw [hr1]; rfl)
          · rw [hr1, Res.bind_fuelOut] at hbnd
            simp [Res.state?] at hbnd
        rcases l with tag | ⟨tag, m⟩ | ⟨m, v⟩ | m | ⟨m, v⟩ | ⟨m, v⟩ | e
        · rw [exec_listeners_log] at h
          exact ih _ _ _ (haddInv _ (fun r hr => by cases hr)) s2 h
        · rw [exec_listeners_logDatum] at h
          exact ih _ _ _ (haddInv _ (fun r hr => by cases hr)) s2 h
        · rw [exec_listeners_setConst] at h
          exact hstep m (.setB v) h
        · rw [exec_listeners_setToArg] at h
          exact hstep m (.setB arg) h
        · rw [exec_listeners_setIfNe] at h
          by_cases hd : s.datumFn m = v
          · rw [if_pos hd] at h
            exact ih _ _ _ hInv s2 h
          · rw [if_neg hd] at h
            exact hstep m (.setB v) h
        · rw [exec_listeners_emitC] at h
          exact hstep m (.emitB v) h
        · rw [exec_listeners_raiseE] at h
          simp [Res.state?] at h
          rw [← h]
          exact hInv
    · -- walk
      rcases ctx with _ | root | t
      · rw [exec_walk_top] at h
        simp [Res.state?] at h
        rw [← h]
        exact hInv
      · rw [exec_walk_warnOnly] at h
        simp [Res.state?] at h
        rw [← h]
        exact hInv
      · rw [exec_walk_txn] at h
        by_cases hlen : i < t.closure.length
        · rw [if_pos hlen] at h
          by_cases hrun : t.toRun.getD i false
          · rw [if_pos hrun] at h
            have hInv1 := haddInv (TraceEv.settled t.txnId i (t.closure.getD i 0))
              (fun r hr => by cases hr)
            rcases hr1 : exec g fuel (.settle (t.closure.getD i 0)) (.txn t)
                (s.addTrace (.settled t.txnId i (t.closure.getD i 0))) with
              ⟨ca, sa⟩ | ⟨e, ca, sa⟩ | _
            · rw [hr1, Res.bind_ok] at h
              exact ih _ _ _ (ih _ _ _ hInv1 sa (by rw [hr1]; rfl)) s2 h
            · rw [hr1, Res.bind_raised] at h
              simp only [Res.state?, Option.some.injEq] at h
              rw [← h]
              exact ih _ _ _ hInv1 sa (by rw [hr1]; rfl)
            · rw [hr1, Res.bind_fuelOut] at h
              simp [Res.state?] at h
          · rw [if_neg hrun] at h
            exact ih _ _ _ hInv s2 h
        · rw [if_neg hlen] at h
          simp [Res.state?] at h
          rw [← h]
          exact hInv
    · -- settle
      rw [exec_settle] at h
      by_cases hev : (g.node n).isEvent
      · rw [if_pos hev] at h
        rcases hod : (g.node n).onDone with _ | f
        · rw [hod] at h
          simp [Res.state?] at h
          rw [← h]
          exact hInv
        · rw [hod] at h
          simp only at h
          exact ih _ _ _ hInv s2 h
      · rw [if_neg hev] at h
        rcases hgv : (g.node n).gv with _ | f
        · rw [hgv] at h
          simp [Res.state?] at h
          rw [← h]
          exact hInv
        · rw [hgv] at h
          simp only at h
          rcases hres : f s.datumFn with _ | v
          · rw [hres] at h
            simp [Res.state?] at h
            rw [← h]
            exact haddInv _ (fun r hr => by cases hr)
          · rw [hres] at h
            exact ih _ _ _ (haddInv _ (fun r hr => by cases hr)) s2 h
    · -- emits
      rcases ps with _ | ⟨p, rest⟩
      · rw [exec_emits_nil] at h
        simp [Res.state?] at h
        rw [← h]
        exact hInv
      · rw [exec_emits_cons] at h
        rcases hr1 : exec g fuel (.enter n (.emitB p)) ctx s with ⟨ca, sa⟩ | ⟨e, ca, sa⟩ | _
        · rw [hr1, Res.bind_ok] at h
          exact ih _ _ _ (ih _ _ _ hInv sa (by rw [hr1]; rfl)) s2 h
        · rw [hr1, Res.bind_raised] at h
          simp only [Res.state?, Option.some.injEq] at h
          rw [← h]
          exact ih _ _ _ hInv sa (by rw [hr1]; rfl)
        · rw [hr1, Res.bind_fuelOut] at h
          simp [Res.state?] at h

/-- Running a loop of datum-observing listeners appends one log entry per
listener, in registration order, each recording the current datum of the
observed node, and changes nothing else. -/
theorem runListeners_logDatum (g : Graph) (m : Nat) (arg : Val) :
    ∀ (tags : List Nat) (fuel : Nat) (ctx : Ctx) (s : S), tags.length < fuel →
      exec g fuel (.listeners (tags.map fun t => Listener.logDatum t m) arg) ctx s =
        .ok ctx { s with trace := s.trace ++ tags.map fun t => .cbLog t (s.datumFn m) } := by
  intro tags
  induction tags with
  | nil =>
    intro fuel ctx s hf
    rcases fuel with _ | f
    · simp at hf
    · rw [List.map_nil, exec_listeners_nil]
      simp
  | cons a rest ihr =>
    intro fuel ctx s hf
    rcases fuel with _ | f
    · simp at hf
    · rw [List.map_cons, exec_listeners_logDatum]
      have hlen : rest.length < f := by
        simp only [List.length_cons] at hf
        omega
      rw [ihr f ctx (s.addTrace (.cbLog a (s.datumFn m))) hlen]
      congr 1
      simp [S.addTrace, S.datumFn]

/-- Running a loop of argument-logging listeners appends one log entry per
listener, in registration order, each recording the notified datum. -/
theorem runListeners_log (g : Graph) (arg : Val) :
    ∀ (tags : List Nat) (fuel : Nat) (ctx : Ctx) (s : S), tags.length < fuel →
      exec g fuel (.listeners (tags.map fun t => Listener.log t) arg) ctx s =
        .ok ctx { s with trace := s.trace ++ tags.map fun t => .cbLog t arg } := by
  intro tags
  induction tags with
  | nil =>
    intro fuel ctx s hf
    rcases fuel with _ | f
    · simp at hf
    · rw [List.map_nil, exec_listeners_nil]
      simp
  | cons a rest ihr =>
    intro fuel ctx s hf
    rcases fuel with _ | f
    · simp at hf
    · rw [List.map_cons, exec_listeners_log]
      have hlen : rest.length < f := by
        simp only [List.length_cons] at hf
        omega
      rw [ihr f ctx (s.addTrace (.cbLog a arg)) hlen]
      congr 1
      simp [S.addTrace]

/-! ## Concrete scenario graphs -/

/-- The diamond of spec scenario 3: `x = node 0`, `y = x + 1` (node 1),
`z = y + 1` (node 2), `w = x + z` (node 3); `x` feeds both `y` and `w`. -/
def gDiamond : Graph :=
  ⟨[{ deps := [1, 3] },
    { deps := [2], gv := some fun dm => .value (.mk ((dm 0).toI + 1)) },
    { deps := [3], gv := some fun dm => .value (.mk ((dm 1).toI + 1)) },
    { gv := some fun dm => .value (.mk ((dm 0).toI + (dm 2).toI)) }]⟩

/-- A value (node 0) feeding an event (node 1) whose reaction emits twice,
feeding a value (node 2). -/
def gEmit : Graph :=
  ⟨[{ deps := [1] },
    { isEvent := true, deps := [2],
      onDone := some fun dm => [.mk (dm 0).toI, .mk ((dm 0).toI + 1)] },
    { gv := some fun dm => .value (.mk ((dm 2).toI + 10)) }]⟩

/-- The `test_missing_dep` shape: node 0 (with dependent 1) has a listener
writing node 2, which has no declared edge from node 0 but its own
dependent 3. -/
def gMissing : Graph :=
  ⟨[{ deps := [1], listeners := [.setToArg 2] },
    { gv := some fun dm => .value (.mk ((dm 0).toI + 1)) },
    { deps := [3] },
    { gv := some fun dm => .value (.mk ((dm 2).toI + 1)) }]⟩

/-- A single node with no dependents whose listener re-assigns the node
itself (guarded so the run terminates), plus a logging listener. -/
def gSelf : Graph := ⟨[{ listeners := [.setIfNe 0 (.mk 9), .log 7] }]⟩

/-- A chain `0 → 1 → 2` where node 1's recompute always reports
`NoChange`; all three nodes carry logging listeners. -/
def gNC : Graph :=
  ⟨[{ deps := [1], listeners := [.log 100] },
    { deps := [2], listeners := [.log 101], gv := some fun _ => .noChange },
    { listeners := [.log 102], gv := some fun dm => .value (.mk (dm 1).toI) }]⟩

/-- A single node whose only listener raises error 7. -/
def gRaise : Graph := ⟨[{ deps := [1], listeners := [.raiseE 7] }, {}]⟩

/-- Node 0 with two datum-observing listeners and a dependent. -/
def gObs : Graph :=
  ⟨[{ deps := [1], listeners := [.logDatum 5 0, .logDatum 6 0] },
    { gv := some fun dm => .value (.mk ((dm 0).toI + 1)) }]⟩

/-- An event node with two payload-logging listeners and a dependent. -/
def gObsE : Graph :=
  ⟨[{ isEvent := true, deps := [1], listeners := [.log 5, .log 6] },
    { gv := some fun dm => .value (.mk ((dm 0).toI + 1)) }]⟩

/-! ## Claim theorems -/

theorem rankedDiamond : Ranked gDiamond id := by
  intro u d hd
  by_cases h4 : u < 4
  · interval_cases u <;> simp [Graph.deps, Graph.node, gDiamond] at hd <;>
      simp only [id_eq] <;> omega
  · have hlen : gDiamond.nodes.length ≤ u := by
      simp [gDiamond]
      omega
    rw [Graph.deps, Graph.node, List.getD_eq_default _ _ hlen] at hd
    simp [default] at hd

/-- C2 (code_bug evidence): on the two-node dependency loop of
`test_loop_dep` (each node a dependent of the other), `_dfs_deps` never
terminates normally no matter the recursion budget, so a mutation on the
loop surfaces as a bare `RecursionError` (`recursionError`) — the code
contains no dependency-loop check, and no "dependency loop" failure is
ever produced, contrary to the spec and to `test_loop_dep`'s expectation
of a `RuntimeError` matching "dependency loop". -/
theorem claim_C2 :
    ∀ fuel, toposortedDependencies gLoop fuel 0 = none ∧
      ∀ s, exec gLoop (fuel + 2) (.enter 0 (.setB (.mk 1))) .top s =
        .raised recursionError .top s := by
  intro fuel
  refine ⟨toposortedDependencies_gLoop fuel, ?_⟩
  intro s
  rw [show fuel + 2 = (fuel + 1) + 1 from rfl, exec_enter_top, exec_newTxn,
    if_neg (by decide), toposortedDependencies_gLoop fuel]

/-- C3: when building the topological closure fails (the DFS exhausts the
recursion budget, as it does on a dependency loop), the failure is raised
from `_in_new_transaction` before the `with`-body runs, so the triggering
`Value`'s datum is unchanged and none of its change-listeners run: the
whole state `s` is returned untouched. -/
theorem claim_C3 (g : Graph) (n : Nat) (v : Val) (s : S) (fuel : Nat)
    (hdeps : (g.deps n).isEmpty = false)
    (htopo : toposortedDependencies g fuel n = none) :
    exec g (fuel + 2) (.enter n (.setB v)) .top s = .raised recursionError .top s := by
  rw [show fuel + 2 = (fuel + 1) + 1 from rfl, exec_enter_top, exec_newTxn,
    if_neg (by simp [hdeps]), htopo]

theorem claim_C3_witness :
    (gLoop.deps 0).isEmpty = false ∧ toposortedDependencies gLoop 5 0 = none ∧
      exec gLoop (5 + 2) (.enter 0 (.setB (.mk 1))) .top ⟨[.noValue, .noValue], [], 0⟩ =
        .raised recursionError .top ⟨[.noValue, .noValue], [], 0⟩ :=
  ⟨by decide, by decide,
    claim_C3 gLoop 0 (.mk 1) ⟨[.noValue, .noValue], [], 0⟩ 5 (by decide) (by decide)⟩

/-- C4: a mutation of a node not present in the running transaction's
index takes the `mark_changed` miss path: an untracked-dependency warning
is recorded and the mutation is re-run as a fresh nested transaction
(`_in_new_transaction`), with the enclosing transaction untouched.  The
concrete `test_missing_dep` scenario shows the nested transaction applying
the mutation and propagating to the node's own real dependent (node 3
recomputes to 3) while the outer transaction still settles its own
dependent (node 1). -/
theorem claim_C4 :
    (∀ (g : Graph) (fuel : Nat) (t : TxnCtx) (n : Nat) (b : Body) (s : S),
      n ∉ t.closure →
      exec g (fuel + 1) (.enter n b) (.txn t) s =
        exec g fuel (.newTxn n b) (.txn t) (s.addTrace (.warn t.root n))) ∧
    exec gMissing 40 (.enter 0 (.setB (.mk 2))) .top ⟨[.mk 0, .mk 1, .mk 0, .mk 1], [], 0⟩ =
      .ok .top
        { datum := [.mk 2, .mk 3, .mk 2, .mk 3],
          trace := [.buildIndex 0, .setApplied 0 (.mk 2), .warn 0 2, .buildIndex 2,
            .setApplied 2 (.mk 2), .settled 1 1 3, .recompute 3, .setApplied 3 (.mk 3),
            .settled 0 1 1, .recompute 1, .setApplied 1 (.mk 3)],
          nextId := 2 } := by
  constructor
  · intro g fuel t n b s hmem
    rw [exec_enter_txn, markChanged_of_notMem t n hmem]
  · decide

theorem claim_C4_witness :
    2 ∉ ([0, 1] : List Nat) ∧
      exec gMissing (5 + 1) (.enter 2 (.setB (.mk 2)))
          (.txn ⟨0, 0, [0, 1], [[1], []], [false, false], [false, false]⟩)
          ⟨[.mk 0, .mk 1, .mk 0, .mk 1], [], 1⟩ =
        exec gMissing 5 (.newTxn 2 (.setB (.mk 2)))
          (.txn ⟨0, 0, [0, 1], [[1], []], [false, false], [false, false]⟩)
          ((⟨[.mk 0, .mk 1, .mk 0, .mk 1], [], 1⟩ : S).addTrace (.warn 0 2)) :=
  ⟨by decide,
    claim_C4.1 gMissing 5 ⟨0, 0, [0, 1], [[1], []], [false, false], [false, false]⟩ 2
      (.setB (.mk 2)) ⟨[.mk 0, .mk 1, .mk 0, .mk 1], [], 1⟩ (by decide)⟩

/-- C6: a recompute that reports `NoChange` during the settle walk leaves
the engine state untouched apart from the recompute log entry — the datum
is kept, no listener runs, and the transaction context (hence the
`changed`/`to_run` marks) is unchanged, so nothing propagates further.  By
contrast an external assignment of an unchanged datum still notifies:
setting node 0 of `gNC` to its current value `0` still logs `cbLog 100`. -/
theorem claim_C6 :
    (∀ (g : Graph) (fuel n : Nat) (ctx : Ctx) (s : S) (f : (Nat → Val) → GetRes),
      (g.node n).isEvent = false → (g.node n).gv = some f → f s.datumFn = .noChange →
      exec g (fuel + 1) (.settle n) ctx s = .ok ctx (s.addTrace (.recompute n))) ∧
    exec gNC 40 (.enter 0 (.setB (.mk 5))) .top ⟨[.mk 0, .mk 1, .mk 2], [], 0⟩ =
      .ok .top
        { datum := [.mk 5, .mk 1, .mk 2],
          trace := [.buildIndex 0, .setApplied 0 (.mk 5), .cbLog 100 (.mk 5),
            .settled 0 1 1, .recompute 1],
          nextId := 1 } ∧
    exec gNC 40 (.enter 0 (.setB (.mk 0))) .top ⟨[.mk 0, .mk 1, .mk 2], [], 0⟩ =
      .ok .top
        { datum := [.mk 0, .mk 1, .mk 2],
          trace := [.buildIndex 0, .setApplied 0 (.mk 0), .cbLog 100 (.mk 0),
            .settled 0 1 1, .recompute 1],
          nextId := 1 } := by
  refine ⟨?_, by decide, by decide⟩
  intro g fuel n ctx s f hev hgv hres
  rw [exec_settle, if_neg (by simp [hev]), hgv]
  simp only
  rw [hres]

theorem claim_C6_witness :
    (gNC.node 1).isEvent = false ∧ (gNC.node 1).gv = some (fun _ => .noChange) ∧
      (fun (_ : Nat → Val) => GetRes.noChange) (S.datumFn ⟨[.mk 5, .mk 1, .mk 2], [], 1⟩) =
        .noChange ∧
      exec gNC (10 + 1) (.settle 1) .top ⟨[.mk 5, .mk 1, .mk 2], [], 1⟩ =
        .ok .top ((⟨[.mk 5, .mk 1, .mk 2], [], 1⟩ : S).addTrace (.recompute 1)) :=
  ⟨by decide, rfl, rfl,
    claim_C6.1 gNC 10 1 .top ⟨[.mk 5, .mk 1, .mk 2], [], 1⟩ (fun _ => .noChange)
      (by decide) rfl rfl⟩

/-- C7: the engine restores the active transaction context at the end of
every `set`/`emit`, both on normal completion and when a
recompute/reaction/listener raises: the resulting context has the identity
(`Ctx.shape`) of the context of entry — `None` (`Ctx.top`) or the
enclosing transaction — so the exception propagates out of the triggering
call and no stale `mark_changed` context leaks into later transactions;
from a top-level call the restored context is exactly `Ctx.top`. -/
theorem claim_C7 :
    (∀ (g : Graph) (fuel n : Nat) (b : Body) (ctx : Ctx) (s : S) (c2 : Ctx) (s2 : S),
      exec g fuel (.enter n b) ctx s = .ok c2 s2 → c2.shape = ctx.shape) ∧
    (∀ (g : Graph) (fuel n : Nat) (b : Body) (ctx : Ctx) (s : S) (e : Nat) (c2 : Ctx) (s2 : S),
      exec g fuel (.enter n b) ctx s = .raised e c2 s2 → c2.shape = ctx.shape) ∧
    (∀ (g : Graph) (fuel n : Nat) (b : Body) (s : S) (e : Nat) (c2 : Ctx) (s2 : S),
      exec g fuel (.enter n b) .top s = .raised e c2 s2 → c2 = .top) := by
  refine ⟨?_, ?_, ?_⟩
  · intro g fuel n b ctx s c2 s2 h
    exact exec_shape g fuel (.enter n b) ctx s c2 (by rw [h]; rfl)
  · intro g fuel n b ctx s e c2 s2 h
    exact exec_shape g fuel (.enter n b) ctx s c2 (by rw [h]; rfl)
  · intro g fuel n b s e c2 s2 h
    have hsh : c2.shape = Ctx.shape .top :=
      exec_shape g fuel (.enter n b) .top s c2 (by rw [h]; rfl)
    rcases c2 with _ | root | t
    · rfl
    · simp [Ctx.shape] at hsh
    · simp [Ctx.shape] at hsh

theorem claim_C7_witness :
    exec gRaise 30 (.enter 0 (.setB (.mk 1))) .top ⟨[.mk 0, .mk 0], [], 0⟩ =
        .raised 7 .top ⟨[.mk 1, .mk 0], [.buildIndex 0, .setApplied 0 (.mk 1)], 1⟩ ∧
      (Ctx.top : Ctx) = .top :=
  ⟨by decide,
    claim_C7.2.2 gRaise 30 0 (.setB (.mk 1)) ⟨[.mk 0, .mk 0], [], 0⟩ 7 .top
      ⟨[.mk 1, .mk 0], [.buildIndex 0, .setApplied 0 (.mk 1)], 1⟩ (by decide)⟩

/-- C8: every successful build of a dependency index over an acyclic
dependents graph (witnessed by a rank function rising along edges) yields
a sorted closure that begins with the root, has no duplicates, is closed
under the dependents relation, and is topologically sorted: no node occurs
after one of its dependents (upstream-before-downstream).  Rebuilds after
a version mismatch run the same `_toposorted_dependencies` routine, so the
property holds for every rebuild as well. -/
theorem claim_C8 (g : Graph) (rank : Nat → Nat) (hr : Ranked g rank)
    (fuel root : Nat) (L : List Nat)
    (h : toposortedDependencies g fuel root = some L) :
    L.head? = some root ∧ L.Nodup ∧ (∀ u ∈ L, ∀ d ∈ g.deps u, d ∈ L) ∧
      L.Pairwise (fun a b => a ∉ g.deps b) :=
  toposortedDependencies_spec g rank hr fuel root L h

theorem claim_C8_witness :
    ([0, 1, 2, 3] : List Nat).head? = some 0 ∧ ([0, 1, 2, 3] : List Nat).Nodup ∧
      (∀ u ∈ ([0, 1, 2, 3] : List Nat), ∀ d ∈ gDiamond.deps u, d ∈ ([0, 1, 2, 3] : List Nat)) ∧
      ([0, 1, 2, 3] : List Nat).Pairwise (fun a b => a ∉ gDiamond.deps b) :=
  claim_C8 gDiamond id rankedDiamond 20 0 [0, 1, 2, 3] (by decide)

/-- A one-node graph as seen by `Value.__init__`: the node under
construction, with its `get_value` but no listeners and no dependents yet
(nothing can have registered with a value that does not exist). -/
def initGraph (gv : Option ((Nat → Val) → GetRes)) : Graph := ⟨[{ gv := gv }]⟩

/-- `Value.__init__`: store `initial_value` into `_value`, then call
`_on_inputs_done` (the settle step) outside any transaction — which calls
`get_value` if present and routes a non-`NoChange` result through the full
`value` setter (taking the warn-only no-dependents transaction path). -/
def valueConstruct (initial : Val) (gv : Option ((Nat → Val) → GetRes)) (fuel : Nat) : Res :=
  exec (initGraph gv) fuel (.settle 0) .top ⟨[initial], [], 0⟩

/-- C5 (amended): a `Value` constructed with a `get_value` function calls
it exactly once at construction (one `recompute` event); its result
becomes the initial datum — unless it returns `NoChange`, in which case
the datum *remains the supplied `initial_value`* (so it is the no-value
marker only when no initial value was supplied, the default).  With no
`get_value`, the datum is the supplied `initial_value` and no recompute
runs. -/
theorem claim_C5 :
    ∀ (initial v : Val) (fuel : Nat),
      valueConstruct initial (some fun _ => .value v) (fuel + 5) =
        .ok .top ⟨[v], [.recompute 0, .setApplied 0 v], 0⟩ ∧
      valueConstruct initial (some fun _ => .noChange) (fuel + 5) =
        .ok .top ⟨[initial], [.recompute 0], 0⟩ ∧
      valueConstruct initial none (fuel + 5) = .ok .top ⟨[initial], [], 0⟩ := by
  intro initial v fuel
  refine ⟨rfl, rfl, rfl⟩

/-- C5 counterexample: the claim states that a recompute returning the
no-change marker at construction makes the initial datum the no-value
marker even when an explicit initial datum is supplied; but constructing
with `initial_value = 5` and a `NoChange`-returning recompute leaves the
datum `5`, not `NoValue`. -/
theorem claim_C5_counterexample :
    (valueConstruct (.mk 5) (some fun _ => .noChange) 10).state? =
        some ⟨[.mk 5], [.recompute 0], 0⟩ ∧
      (Val.mk 5 : Val) ≠ .noValue := by
  refine ⟨rfl, by decide⟩

/-- C10: a root whose dependents list is empty takes the warn-only branch
of `_in_new_transaction` — no dependency index is built (first conjunct:
the branch equation never touches `_toposorted_dependencies`; third
conjunct: no `buildIndex` event for such a node ever appears in a
reachable trace) — and every `mark_changed` issued while its callbacks run
(second conjunct; `m` may be the root itself) warns and starts a fresh
nested transaction instead of marking the current one.  The concrete run
re-assigns the root from its own listener: the warning names the root on
both sides and the nested transaction still applies the mutation. -/
theorem claim_C10 :
    (∀ (g : Graph) (fuel n : Nat) (b : Body) (ctx : Ctx) (s : S),
      (g.deps n).isEmpty = true →
      exec g (fuel + 1) (.newTxn n b) ctx s =
        restoring ctx (exec g fuel (.body n b) (.warnOnly n) s)) ∧
    (∀ (g : Graph) (fuel m : Nat) (b : Body) (root : Nat) (s : S),
      exec g (fuel + 1) (.enter m b) (.warnOnly root) s =
        exec g fuel (.newTxn m b) (.warnOnly root) (s.addTrace (.warn root m))) ∧
    (∀ (g : Graph) (fuel : Nat) (c : Call) (ctx : Ctx) (d0 : List Val) (k n : Nat) (s2 : S),
      (g.deps n).isEmpty = true →
      (exec g fuel c ctx ⟨d0, [], k⟩).state? = some s2 →
      TraceEv.buildIndex n ∉ s2.trace) ∧
    exec gSelf 40 (.enter 0 (.setB (.mk 1))) .top ⟨[.mk 0], [], 0⟩ =
      .ok .top
        { datum := [.mk 9],
          trace := [.setApplied 0 (.mk 1), .warn 0 0, .setApplied 0 (.mk 9),
            .cbLog 7 (.mk 9), .cbLog 7 (.mk 1)],
          nextId := 0 } := by
  refine ⟨?_, ?_, ?_, by decide⟩
  · intro g fuel n b ctx s hemp
    rw [exec_newTxn, if_pos hemp]
  · intro g fuel m b root s
    rw [exec_enter_warnOnly]
  · intro g fuel c ctx d0 k n s2 hemp h hmem
    have := exec_buildIndexOK g fuel c ctx ⟨d0, [], k⟩ (by intro r hr; simp at hr) s2 h n hmem
    rw [hemp] at this
    cases this

theorem claim_C10_witness :
    (gSelf.deps 0).isEmpty = true ∧
      TraceEv.buildIndex 0 ∉
        [TraceEv.setApplied 0 (.mk 1), TraceEv.warn 0 0, TraceEv.setApplied 0 (.mk 9),
          TraceEv.cbLog 7 (.mk 9), TraceEv.cbLog 7 (.mk 1)] :=
  ⟨by decide,
    claim_C10.2.2.1 gSelf 40 (.enter 0 (.setB (.mk 1))) .top [.mk 0] 0 0
      ⟨[.mk 9],
        [.setApplied 0 (.mk 1), .warn 0 0, .setApplied 0 (.mk 9),
          .cbLog 7 (.mk 9), .cbLog 7 (.mk 1)], 0⟩
      (by decide) (by decide)⟩

/-- C1: within one transaction each closure position settles at most once
and positions settle in increasing topological order — formally, for any
run started by a top-level `set`/`emit` on any graph, the settle record of
every transaction id is strictly increasing (first conjunct; combined with
C8's nodup, toposorted closure this yields: each node at most once, only
after every upstream closure member).  On the diamond (`w = x + z` with
`x → y → z → w` and `x → w`), setting `x` settles `w` exactly once
(position record `[1, 2, 3]`) and `w` computes `2 + 4 = 6`, seeing both
upstream changes applied.  An event reaction emitting twice still settles
its downstream exactly once (record `[1, 2]`). -/
theorem claim_C1 :
    (∀ (g : Graph) (fuel n : Nat) (b : Body) (d0 : List Val) (s2 : S),
      (exec g fuel (.enter n b) .top ⟨d0, [], 0⟩).state? = some s2 →
      ∀ tid, List.Chain' (· < ·) (settlesOf tid s2.trace)) ∧
    exec gDiamond 40 (.enter 0 (.setB (.mk 2))) .top ⟨[.mk 1, .mk 2, .mk 3, .mk 4], [], 0⟩ =
      .ok .top
        { datum := [.mk 2, .mk 3, .mk 4, .mk 6],
          trace := [.buildIndex 0, .setApplied 0 (.mk 2), .settled 0 1 1, .recompute 1,
            .setApplied 1 (.mk 3), .settled 0 2 2, .recompute 2, .setApplied 2 (.mk 4),
            .settled 0 3 3, .recompute 3, .setApplied 3 (.mk 6)],
          nextId := 1 } ∧
    settlesOf 0 [.buildIndex 0, .setApplied 0 (.mk 2), .settled 0 1 1, .recompute 1,
        .setApplied 1 (.mk 3), .settled 0 2 2, .recompute 2, .setApplied 2 (.mk 4),
        .settled 0 3 3, .recompute 3, .setApplied 3 (.mk 6)] = [1, 2, 3] ∧
    exec gEmit 60 (.enter 0 (.setB (.mk 5))) .top ⟨[.mk 0, .noValue, .mk 0], [], 0⟩ =
      .ok .top
        { datum := [.mk 5, .noValue, .mk 10],
          trace := [.buildIndex 0, .setApplied 0 (.mk 5), .settled 0 1 1,
            .emitApplied 1 (.mk 5), .emitApplied 1 (.mk 6), .settled 0 2 2, .recompute 2,
            .setApplied 2 (.mk 10)],
          nextId := 1 } ∧
    settlesOf 0 [.buildIndex 0, .setApplied 0 (.mk 5), .settled 0 1 1,
        .emitApplied 1 (.mk 5), .emitApplied 1 (.mk 6), .settled 0 2 2, .recompute 2,
        .setApplied 2 (.mk 10)] = [1, 2] := by
  refine ⟨?_, by decide, by decide, by decide, by decide⟩
  intro g fuel n b d0 s2 h tid
  have hSt : StInv ⟨d0, [], 0⟩ := by
    intro tid2 hne
    exact absurd rfl hne
  have hfr := exec_frame g fuel (.enter n b) .top ⟨d0, [], 0⟩ (ctxOK_top _) hSt s2 h
  rw [tracePresCall_enter] at hfr
  exact hfr.2.2.2.1 tid (Nat.zero_le tid) rfl

theorem claim_C1_witness :
    List.Chain' (· < ·)
      (settlesOf 0 [.buildIndex 0, .setApplied 0 (.mk 2), .settled 0 1 1, .recompute 1,
        .setApplied 1 (.mk 3), .settled 0 2 2, .recompute 2, .setApplied 2 (.mk 4),
        .settled 0 3 3, .recompute 3, .setApplied 3 (.mk 6)]) :=
  claim_C1.1 gDiamond 40 0 (.setB (.mk 2)) [.mk 1, .mk 2, .mk 3, .mk 4]
    ⟨[.mk 2, .mk 3, .mk 4, .mk 6],
      [.buildIndex 0, .setApplied 0 (.mk 2), .settled 0 1 1, .recompute 1,
        .setApplied 1 (.mk 3), .settled 0 2 2, .recompute 2, .setApplied 2 (.mk 4),
        .settled 0 3 3, .recompute 3, .setApplied 3 (.mk 6)], 1⟩
    (by decide) 0

theorem markChanged_txnId (t : TxnCtx) (n : Nat) : ((markChanged t n).2).txnId = t.txnId := by
  rw [markChanged]
  rcases t.closure.findIdx? (· = n) with _ | idx
  · rfl
  · simp only
    split <;> rfl

theorem settlesOf_cbLogs (tid : Nat) (tags : List Nat) (v : Val) :
    settlesOf tid (tags.map fun t => TraceEv.cbLog t v) = [] := by
  induction tags with
  | nil => rfl
  | cons a rest ihr => simp [settlesOf, List.filterMap_cons]

/-- A settle walk only appends to the trace. -/
theorem walk_trace_prefix (g : Graph) (fuel : Nat) (t : TxnCtx) (s : S) (s2 : S)
    (htid : t.txnId < s.nextId)
    (hsettles : ∀ tid, settlesOf tid s.trace = [])
    (h : (exec g fuel (.walk 1) (.txn t) s).state? = some s2) :
    ∃ rest, s2.trace = s.trace ++ rest := by
  have hSt : StInv s := fun tid hne => absurd (hsettles tid) hne
  have hfr := exec_frame g fuel (.walk 1) (.txn t) s (ctxOK_txn t s htid) hSt s2 h
  rw [tracePresCall_walk_txn] at hfr
  obtain ⟨rest, hrest⟩ := hfr.1
  exact ⟨rest, hrest.symm⟩

/-- C9: `set(new_datum)` stores the datum and then runs every registered
change-listener synchronously, exactly once each, in registration order,
before the settle walk: the trace decomposes as the (possible) index
build, the `setApplied` record, one `cbLog` per listener in list order —
each listener observing the already-updated datum `v` via `logDatum` —
and only then the walk's events.  `Event.emit` likewise runs all
event-listeners synchronously in registration order with the payload. -/
theorem claim_C9 :
    (∀ (g : Graph) (n : Nat) (v : Val) (tags : List Nat) (fuel : Nat) (d0 : List Val) (s2 : S),
      g.nlisteners n = tags.map (fun t => Listener.logDatum t n) →
      n < d0.length →
      tags.length + 1 < fuel →
      ((g.deps n).isEmpty = true ∨ toposortedDependencies g fuel n ≠ none) →
      (exec g (fuel + 2) (.enter n (.setB v)) .top ⟨d0, [], 0⟩).state? = some s2 →
      ∃ pre rest, (pre = [] ∨ pre = [TraceEv.buildIndex n]) ∧
        s2.trace = pre ++ TraceEv.setApplied n v ::
          ((tags.map fun t => TraceEv.cbLog t v) ++ rest)) ∧
    (∀ (g : Graph) (n : Nat) (v : Val) (tags : List Nat) (fuel : Nat) (d0 : List Val) (s2 : S),
      g.nlisteners n = tags.map (fun t => Listener.log t) →
      tags.length + 1 < fuel →
      ((g.deps n).isEmpty = true ∨ toposortedDependencies g fuel n ≠ none) →
      (exec g (fuel + 2) (.enter n (.emitB v)) .top ⟨d0, [], 0⟩).state? = some s2 →
      ∃ pre rest, (pre = [] ∨ pre = [TraceEv.buildIndex n]) ∧
        s2.trace = pre ++ TraceEv.emitApplied n v ::
          ((tags.map fun t => TraceEv.cbLog t v) ++ rest)) := by
  constructor
  · intro g n v tags fuel d0 s2 h1 h2 h3 h4 h5
    rw [show fuel + 2 = (fuel + 1) + 1 from rfl, exec_enter_top, exec_newTxn] at h5
    by_cases hemp : (g.deps n).isEmpty
    · rw [if_pos hemp, restoring_state?] at h5
      rcases fuel with _ | f
      · simp at h3
      rw [exec_body_set, h1,
        runListeners_logDatum g n v tags f (.warnOnly n) _ (by omega)] at h5
      simp only [Res.state?, Option.some.injEq] at h5
      refine ⟨[], [], Or.inl rfl, ?_⟩
      rw [← h5]
      simp [S.datumFn, List.getD_eq_getElem?_getD, List.getElem?_set_self, h2]
    · rw [if_neg hemp] at h5
      rcases h4 with h4 | h4
      · exact absurd h4 hemp
      rcases htp : toposortedDependencies g fuel n with _ | L
      · exact absurd htp h4
      rw [htp] at h5
      simp only at h5
      rcases fuel with _ | f
      · simp at h3
      rw [exec_body_set, h1,
        runListeners_logDatum g n v tags f _ _ (by omega), Res.bind_ok] at h5
      simp only at h5
      rw [restoring_state?] at h5
      obtain ⟨rest, hrest⟩ := walk_trace_prefix g (f + 1) _ _ s2
        (by rw [markChanged_txnId]; simp [mkTxnCtx])
        (by
          intro tid
          simp [settlesOf_append, settlesOf, List.filterMap_cons, settlesOf_cbLogs])
        h5
      refine ⟨[.buildIndex n], rest, Or.inr rfl, ?_⟩
      rw [hrest]
      simp [S.datumFn, List.getD_eq_getElem?_getD, List.getElem?_set_self, h2]
  · intro g n v tags fuel d0 s2 h1 h3 h4 h5
    rw [show fuel + 2 = (fuel + 1) + 1 from rfl, exec_enter_top, exec_newTxn] at h5
    by_cases hemp : (g.deps n).isEmpty
    · rw [if_pos hemp, restoring_state?] at h5
      rcases fuel with _ | f
      · simp at h3
      rw [exec_body_emit, h1,
        runListeners_log g v tags f (.warnOnly n) _ (by omega)] at h5
      simp only [Res.state?, Option.some.injEq] at h5
      refine ⟨[], [], Or.inl rfl, ?_⟩
      rw [← h5]
      simp [S.addTrace]
    · rw [if_neg hemp] at h5
      rcases h4 with h4 | h4
      · exact absurd h4 hemp
      rcases htp : toposortedDependencies g fuel n with _ | L
      · exact absurd htp h4
      rw [htp] at h5
      simp only at h5
      rcases fuel with _ | f
      · simp at h3
      rw [exec_body_emit, h1,
        runListeners_log g v tags f _ _ (by omega), Res.bind_ok] at h5
      simp only at h5
      rw [restoring_state?] at h5
      obtain ⟨rest, hrest⟩ := walk_trace_prefix g (f + 1) _ _ s2
        (by rw [markChanged_txnId]; simp [mkTxnCtx, S.addTrace])
        (by
          intro tid
          simp [settlesOf_append, settlesOf, List.filterMap_cons, settlesOf_cbLogs,
            S.addTrace])
        h5
      refine ⟨[.buildIndex n], rest, Or.inr rfl, ?_⟩
      rw [hrest]
      simp [S.addTrace]

theorem claim_C9_witness :
    (∃ pre rest, (pre = [] ∨ pre = [TraceEv.buildIndex 0]) ∧
      [TraceEv.buildIndex 0, TraceEv.setApplied 0 (.mk 4), TraceEv.cbLog 5 (.mk 4),
        TraceEv.cbLog 6 (.mk 4), TraceEv.settled 0 1 1, TraceEv.recompute 1,
        TraceEv.setApplied 1 (.mk 5)] =
        pre ++ TraceEv.setApplied 0 (.mk 4) ::
          (([5, 6].map fun t => TraceEv.cbLog t (.mk 4)) ++ rest)) ∧
    ∃ pre rest, (pre = [] ∨ pre = [TraceEv.buildIndex 0]) ∧
      [TraceEv.buildIndex 0, TraceEv.emitApplied 0 (.mk 4), TraceEv.cbLog 5 (.mk 4),
        TraceEv.cbLog 6 (.mk 4), TraceEv.settled 0 1 1, TraceEv.recompute 1,
        TraceEv.setApplied 1 (.mk 1)] =
        pre ++ TraceEv.emitApplied 0 (.mk 4) ::
          (([5, 6].map fun t => TraceEv.cbLog t (.mk 4)) ++ rest) :=
  ⟨claim_C9.1 gObs 0 (.mk 4) [5, 6] 10 [.mk 0, .mk 1]
      ⟨[.mk 4, .mk 5],
        [.buildIndex 0, .setApplied 0 (.mk 4), .cbLog 5 (.mk 4), .cbLog 6 (.mk 4),
          .settled 0 1 1, .recompute 1, .setApplied 1 (.mk 5)], 1⟩
      rfl (by decide) (by decide) (Or.inr (by decide)) (by decide),
    claim_C9.2 gObsE 0 (.mk 4) [5, 6] 10 [.noValue, .mk 1]
      ⟨[.noValue, .mk 1],
        [.buildIndex 0, .emitApplied 0 (.mk 4), .cbLog 5 (.mk 4), .cbLog 6 (.mk 4),
          .settled 0 1 1, .recompute 1, .setApplied 1 (.mk 1)], 1⟩
      rfl (by decide) (Or.inr (by decide)) (by decide)⟩

end Yarp
